import Mathlib

/-!
Verification of the RAG backend (`src/backend/app`): a shallow embedding of
the streaming SSE generator (`utils/ai.py`), the crawler/extractor
(`services/scraper.py`), the query rewriter (`services/query_rewriter.py`)
and the retrieval merge (`services/embedding.py`), with theorems settling
the behavioural claims about them.

External libraries (the OpenAI transport, BeautifulSoup, pypdf, urllib,
Chroma, `json.loads`) are modelled as environment oracles: every use of an
external function is a field of an explicit environment structure, and the
embedded code is quantified over all environments.
-/

set_option maxHeartbeats 1000000
set_option maxRecDepth 8192

namespace Backend

/-- Model of Python `str.lower` on one character: ASCII uppercase letters map
to lowercase, everything else is unchanged. -/
def pyCharLower (c : Char) : Char :=
  if c.toNat ≥ 65 ∧ c.toNat ≤ 90 then Char.ofNat (c.toNat + 32) else c

/-- Model of Python `str.lower`. -/
def pyLower (s : String) : String := ⟨s.data.map pyCharLower⟩

/-- Model of Python `str.strip()`: remove leading and trailing whitespace. -/
def pyStrip (s : String) : String :=
  ⟨((s.data.dropWhile Char.isWhitespace).reverse.dropWhile Char.isWhitespace).reverse⟩

/-- A single-quote character, used when embedding Python f-string literals. -/
def sq : String := String.singleton (Char.ofNat 39)

/-- List-level string-prefix test. -/
def isPfxL : List Char → List Char → Bool
  | [], _ => true
  | _ :: _, [] => false
  | a :: as, b :: bs => a == b && isPfxL as bs

/-- `needle` occurs as a contiguous substring of `hay`
(model of Python `needle in hay`). -/
def subOccursL (needle : List Char) : List Char → Bool
  | [] => needle.isEmpty
  | c :: rest => isPfxL needle (c :: rest) || subOccursL needle rest

/-- `needle` occurs as a substring of `hay`, on `String`. -/
def subOccurs (needle hay : String) : Bool := subOccursL needle.data hay.data

namespace AI

/-! ## Embedding of `src/backend/app/utils/ai.py`, `stream_text`
(lines 189-430) and `stream_text_with_persistence` (lines 433-497).

The OpenAI chunk objects are embedded as plain data; the SSE frames
(`format_sse` dicts and the `data: [DONE]` sentinel) are embedded as the
tagged inductive `Event`, one constructor per `type` value plus `done` for
the sentinel. -/

/-- `tool_call_delta.function`: optional `name` and `arguments` fragments. -/
structure FunctionDelta where
  name : Option String
  arguments : Option String
deriving DecidableEq

/-- One element of `delta.tool_calls`. -/
structure ToolCallDelta where
  index : Nat
  id : Option String
  function : Option FunctionDelta
deriving DecidableEq

/-- `choice.delta`: optional content fragment plus tool-call fragments
(`delta.tool_calls` is `None`/empty ⇒ the empty list here). -/
structure Delta where
  content : Option String
  tool_calls : List ToolCallDelta
deriving DecidableEq

/-- One element of `chunk.choices`. -/
structure Choice where
  finish_reason : Option String
  delta : Option Delta
deriving DecidableEq

/-- `chunk.usage`. -/
structure Usage where
  prompt_tokens : Nat
  completion_tokens : Nat
  total_tokens : Option Nat
deriving DecidableEq

/-- One chunk of the model completion stream. -/
structure Chunk where
  choices : List Choice
  usage : Option Usage
deriving DecidableEq

/-- Result of `json.loads` on accumulated tool arguments: `emptyObj` is the
`{}` used when the accumulated text is empty, `val` an arbitrary parsed
value. -/
inductive ArgVal where
  | emptyObj : ArgVal
  | val : String → ArgVal
deriving DecidableEq

/-- The `usage` entry of the finish metadata
(`totalTokens` present only when the transport reported it). -/
structure UsagePayload where
  promptTokens : Nat
  completionTokens : Nat
  totalTokens : Option Nat
deriving DecidableEq

/-- The `messageMetadata` payload of a `finish` frame. -/
structure FinishMeta where
  finishReason : Option String
  usage : Option UsagePayload
deriving DecidableEq

/-- One SSE frame of the streaming wire protocol: one constructor per
`type` tag produced by `format_sse`, plus `done` for the literal
`data: [DONE]` terminal sentinel. -/
inductive Event where
  | start (messageId : String)
  | textStart (id : String)
  | textDelta (id : String) (delta : String)
  | textEnd (id : String)
  | toolInputStart (toolCallId toolName : String)
  | toolInputDelta (toolCallId inputTextDelta : String)
  | toolInputError (toolCallId toolName input errorText : String)
  | toolInputAvailable (toolCallId toolName : String) (input : ArgVal)
  | toolOutputAvailable (toolCallId : String) (output : String)
  | toolOutputError (toolCallId errorText : String)
  | finish (meta : Option FinishMeta)
  | error (errorText : String)
  | done
deriving DecidableEq

/-- `tool_calls_state[index]`: the per-index accumulator dict
`{"id": None, "name": None, "arguments": "", "started": False}`. -/
structure ToolState where
  id : Option String
  name : Option String
  arguments : String
  started : Bool
deriving DecidableEq

/-- The fresh accumulator installed by `setdefault`. -/
def freshToolState : ToolState := ⟨none, none, "", false⟩

/-- The local variables of `stream_text` that live across chunks.
`tool_calls_state` is the insertion-ordered dict, embedded as an
association list keyed by the tool-call index. -/
structure GenState where
  text_started : Bool
  text_finished : Bool
  finish_reason : Option String
  usage_data : Option Usage
  tool_calls_state : List (Nat × ToolState)
deriving DecidableEq

def initState : GenState := ⟨false, false, none, none, []⟩

/-- Dict lookup on the insertion-ordered association list. -/
def lookupTC (s : List (Nat × ToolState)) (i : Nat) : Option ToolState :=
  (s.find? (fun p => p.1 == i)).map (·.2)

/-- Dict write: update in place when the key exists (Python dicts keep the
original insertion position), else append at the end (as `setdefault`
does). -/
def setTC : List (Nat × ToolState) → Nat → ToolState → List (Nat × ToolState)
  | [], i, st => [(i, st)]
  | p :: rest, i, st => if p.1 = i then (i, st) :: rest else p :: setTC rest i st

/-- Environment of `stream_text`: the generated message id, the behaviour of
`json.loads` (`none` models a raised exception, with `jsonErrText` the
`str(error)`), and the `available_tools` registry (a registered tool maps
parsed arguments to a result or, via `Except.error`, a raised exception). -/
structure StreamEnv where
  msgId : String
  jsonParse : String → Option ArgVal
  jsonErrText : String → String
  tools : String → Option (ArgVal → Except String String)

/-- `text_stream_id = "text-1"`. -/
def textStreamId : String := "text-1"

/-- The check repeated at ai.py lines 256-268, 274-286 and 289-301: the
instant both `id` and `name` are known and the state has not started, emit
`tool-input-start` and set the flag. -/
def maybeStart (st : ToolState) : ToolState × List Event :=
  match st.id, st.name with
  | some i, some n =>
      if st.started then (st, [])
      else ({ st with started := true }, [Event.toolInputStart i n])
  | _, _ => (st, [])

/-- `if tool_call_delta.id is not None` (ai.py lines 254-268): record the
id, then run the start check. -/
def idPhase (st0 : ToolState) (tcd : ToolCallDelta) : ToolState × List Event :=
  match tcd.id with
  | some newId => maybeStart { st0 with id := some newId }
  | none => (st0, [])

/-- `if function_call.name is not None` (ai.py lines 272-286): record the
name, then run the start check. -/
def namePhase (st : ToolState) (fc : FunctionDelta) : ToolState × List Event :=
  match fc.name with
  | some n => maybeStart { st with name := some n }
  | none => (st, [])

/-- `if function_call.arguments` (ai.py lines 288-311): run the start
check, accumulate the fragment, and emit `tool-input-delta` whenever the
call id is known. -/
def argsPhase (st : ToolState) (fc : FunctionDelta) : ToolState × List Event :=
  match fc.arguments with
  | some a =>
    if a ≠ "" then
      let rS := maybeStart st
      let stD := { rS.1 with arguments := rS.1.arguments ++ a }
      let esD :=
        match stD.id with
        | some i => [Event.toolInputDelta i a]
        | none => []
      (stD, rS.2 ++ esD)
    else (st, [])
  | none => (st, [])

/-- Processing of one `tool_call_delta` against its accumulator
(ai.py lines 242-311). -/
def processToolCallDelta (st0 : ToolState) (tcd : ToolCallDelta) :
    ToolState × List Event :=
  let r1 := idPhase st0 tcd
  match tcd.function with
  | none => r1
  | some fc =>
    let r2 := namePhase r1.1 fc
    let r3 := argsPhase r2.1 fc
    (r3.1, r1.2 ++ r2.2 ++ r3.2)

/-- Processing of the list `delta.tool_calls` in order
(ai.py lines 242-311, the inner `for`). -/
def processToolCallDeltas : GenState → List ToolCallDelta → GenState × List Event
  | s, [] => (s, [])
  | s, tcd :: rest =>
    let st0 := (lookupTC s.tool_calls_state tcd.index).getD freshToolState
    let r := processToolCallDelta st0 tcd
    let s1 := { s with tool_calls_state := setTC s.tool_calls_state tcd.index r.1 }
    let r2 := processToolCallDeltas s1 rest
    (r2.1, r.2 ++ r2.2)

/-- `if choice.finish_reason is not None` (ai.py lines 222-223). -/
def recordFinish (s : GenState) (choice : Choice) : GenState :=
  match choice.finish_reason with
  | some fr => { s with finish_reason := some fr }
  | none => s

/-- `if delta.content is not None` (ai.py lines 229-239): open the text
span lazily, emit one `text-delta` per fragment. -/
def contentPhase (s : GenState) (delta : Delta) : GenState × List Event :=
  match delta.content with
  | some content =>
    if s.text_started then
      (s, [Event.textDelta textStreamId content])
    else
      ({ s with text_started := true },
        [Event.textStart textStreamId, Event.textDelta textStreamId content])
  | none => (s, [])

/-- Processing of one `choice` of a chunk (ai.py lines 221-311): record the
finish reason, emit the content events, then feed the tool-call fragments
to the accumulators. -/
def processChoice (s : GenState) (choice : Choice) : GenState × List Event :=
  let s0 := recordFinish s choice
  match choice.delta with
  | none => (s0, [])
  | some delta =>
    let r1 := contentPhase s0 delta
    let r2 := processToolCallDeltas r1.1 delta.tool_calls
    (r2.1, r1.2 ++ r2.2)

/-- The `for choice in chunk.choices` loop (ai.py line 221). -/
def processChoices : GenState → List Choice → GenState × List Event
  | s, [] => (s, [])
  | s, ch :: rest =>
    let r1 := processChoice s ch
    let r2 := processChoices r1.1 rest
    (r2.1, r1.2 ++ r2.2)

/-- Processing of all choices of one chunk, then of `chunk.usage`
(ai.py lines 220-314). -/
def processChunk (s : GenState) (chunk : Chunk) : GenState × List Event :=
  let r := processChoices s chunk.choices
  if chunk.choices.isEmpty then
    match chunk.usage with
    | some u => ({ r.1 with usage_data := some u }, r.2)
    | none => r
  else r

/-- The `for chunk in stream` loop (ai.py lines 220-314). -/
def runChunks : GenState → List Chunk → GenState × List Event
  | s, [] => (s, [])
  | s, c :: rest =>
    let r1 := processChunk s c
    let r2 := runChunks r1.1 rest
    (r2.1, r1.2 ++ r2.2)

/-- Ascending insertion of a key (used to model Python `sorted`). -/
def insertNat (i : Nat) : List Nat → List Nat
  | [] => [i]
  | j :: rest => if i ≤ j then i :: j :: rest else j :: insertNat i rest

/-- Model of `sorted(tool_calls_state.keys())`. -/
def sortNats (l : List Nat) : List Nat := l.foldr insertNat []

/-- The f-string `f"Tool '{tool_name}' not found."` (ai.py line 371). -/
def toolNotFoundText (n : String) : String :=
  "Tool " ++ sq ++ n ++ sq ++ " not found."

/-- Tool lookup and invocation (ai.py lines 356-393): emit
`tool-input-available`, then dispatch — unregistered name or raised
exception yields `tool-output-error`, success `tool-output-available`. -/
def toolDispatchEvents (env : StreamEnv) (c n : String) (v : ArgVal) :
    List Event :=
  match env.tools n with
  | none =>
    [Event.toolInputAvailable c n v, Event.toolOutputError c (toolNotFoundText n)]
  | some f =>
    match f v with
    | Except.error err =>
      [Event.toolInputAvailable c n v, Event.toolOutputError c err]
    | Except.ok out =>
      [Event.toolInputAvailable c n v, Event.toolOutputAvailable c out]

/-- Argument parsing (ai.py lines 339-363): empty accumulated text parses
as `{}`; a `json.loads` failure emits `tool-input-error` and skips
dispatch. -/
def toolParseEvents (env : StreamEnv) (st : ToolState) (c n : String) :
    List Event :=
  match if st.arguments = "" then some ArgVal.emptyObj
        else env.jsonParse st.arguments with
  | none => [Event.toolInputError c n st.arguments (env.jsonErrText st.arguments)]
  | some v => toolDispatchEvents env c n v

/-- Post-stream processing of one accumulated tool call
(ai.py lines 322-393): skip states missing id or name, ensure
`tool-input-start` fired, then parse and dispatch. -/
def processFinishedTool (env : StreamEnv) (st : ToolState) : List Event :=
  match st.id, st.name with
  | some c, some n =>
    (if st.started then [] else [Event.toolInputStart c n]) ++
      toolParseEvents env st c n
  | _, _ => []

/-- The `finish_reason == "tool_calls"` phase (ai.py lines 320-393):
process every accumulated state in ascending index order. -/
def toolPhase (env : StreamEnv) (s : GenState) : List Event :=
  (sortNats (s.tool_calls_state.map Prod.fst)).foldr
    (fun i acc =>
      (match lookupTC s.tool_calls_state i with
        | some st => processFinishedTool env st
        | none => []) ++ acc)
    []

/-- `"_"`-to-`"-"` replacement applied to the finish reason
(ai.py line 401). -/
def replaceUnderscores (s : String) : String :=
  ⟨s.data.map (fun c => if c = '_' then '-' else c)⟩

/-- The `finish_metadata` dict (ai.py lines 399-411); `none` when the dict
is empty (so a bare `finish` frame is sent). -/
def finishMeta (s : GenState) : Option FinishMeta :=
  match s.finish_reason, s.usage_data with
  | none, none => none
  | fr, up =>
    some ⟨fr.map replaceUnderscores,
      up.map (fun u => UsagePayload.mk u.prompt_tokens u.completion_tokens u.total_tokens)⟩

/-- ai.py lines 316-318: close the text span when the finish reason is
"stop" and a span is open. -/
def stopCloseEvents (s : GenState) : List Event :=
  if s.finish_reason == some "stop" && s.text_started && !s.text_finished
  then [Event.textEnd textStreamId] else []

/-- The value of `text_finished` after ai.py lines 316-318. -/
def textFinishedAfterStop (s : GenState) : Bool :=
  if s.finish_reason == some "stop" && s.text_started && !s.text_finished
  then true else s.text_finished

/-- ai.py lines 320-393: the tool phase runs only on finish reason
"tool_calls". -/
def toolPhaseEvents (env : StreamEnv) (s : GenState) : List Event :=
  if s.finish_reason == some "tool_calls" then toolPhase env s else []

/-- ai.py lines 395-397: close any still-open text span, whatever the
finish reason. -/
def finalCloseEvents (s : GenState) : List Event :=
  if s.text_started && !textFinishedAfterStop s
  then [Event.textEnd textStreamId] else []

/-- Everything after the chunk loop on the non-exception path
(ai.py lines 316-418): close the text span on "stop", run the tool phase
on "tool_calls", close any still-open text span unconditionally, emit
`finish` and the sentinel. -/
def postPhase (env : StreamEnv) (s : GenState) : List Event :=
  stopCloseEvents s ++ toolPhaseEvents env s ++ finalCloseEvents s ++
    [Event.finish (finishMeta s), Event.done]

/-- `stream_text` (ai.py lines 189-430) as a function of the chunk sequence
delivered by the transport and of an optional transport exception `exn`
raised while producing the stream (`chunks` are the chunks delivered before
the failure; `exn = none` is a normal completion). The `start` frame is
emitted before the transport is touched; any caught exception yields one
`error` frame and then the sentinel — the sentinel is emitted on every
path. -/
def stream_text (env : StreamEnv) (chunks : List Chunk) (exn : Option String) :
    List Event :=
  let r := runChunks initState chunks
  match exn with
  | some e => Event.start env.msgId :: (r.2 ++ [Event.error e, Event.done])
  | none => Event.start env.msgId :: (r.2 ++ postPhase env r.1)

/-- A UI chat message as assembled by the persistence wrapper. -/
structure UIMessage where
  id : String
  role : String
  text : String
deriving DecidableEq

/-- A save scheduled on `background_tasks` by the wrapper: the chat id, the
user id and the final message list passed to `save_chat`. -/
structure SaveTask where
  chat_id : String
  user_id : Int
  final_messages : List UIMessage
deriving DecidableEq

/-- The event loop of `stream_text_with_persistence` (ai.py lines 452-497):
observe each frame (record the message id from `start`, accumulate
`text-delta` fragments, schedule the save on the sentinel) and yield the
frame unchanged. -/
def persistLoop (fallbackId chat_id : String) (user_id : Int)
    (ui_messages : List UIMessage) :
    List Event → List String → Option String → List Event × List SaveTask
  | [], _, _ => ([], [])
  | e :: rest, collected, mid =>
    let step :
        List String × Option String × List SaveTask :=
      match e with
      | Event.done =>
        (collected, mid,
          [⟨chat_id, user_id,
            ui_messages ++
              [⟨mid.getD fallbackId, "assistant", String.join collected⟩]⟩])
      | Event.start m => (collected, some m, [])
      | Event.textDelta _ d => (collected ++ [d], mid, [])
      | _ => (collected, mid, [])
    let r := persistLoop fallbackId chat_id user_id ui_messages rest
      step.1 step.2.1
    (e :: r.1, step.2.2 ++ r.2)

/-- `stream_text_with_persistence` (ai.py lines 433-497): wraps
`stream_text`, returning the yielded frames and the scheduled background
saves. `fallbackId` is the fresh `msg-{uuid}` used when no `start` frame
was seen. -/
def stream_text_with_persistence (env : StreamEnv) (fallbackId : String)
    (chunks : List Chunk) (exn : Option String) (ui_messages : List UIMessage)
    (chat_id : String) (user_id : Int) : List Event × List SaveTask :=
  persistLoop fallbackId chat_id user_id ui_messages
    (stream_text env chunks exn) [] none

/-! ### Observables over emitted event sequences -/

/-- The event kinds the chunk loop can emit. -/
def isLoopEvent : Event → Bool
  | Event.textStart _ => true
  | Event.textDelta _ _ => true
  | Event.toolInputStart _ _ => true
  | Event.toolInputDelta _ _ => true
  | _ => false

/-- The event kinds the `tool_calls` finish phase can emit. -/
def isToolPhaseEvent : Event → Bool
  | Event.toolInputStart _ _ => true
  | Event.toolInputDelta _ _ => true
  | Event.toolInputError _ _ _ _ => true
  | Event.toolInputAvailable _ _ _ => true
  | Event.toolOutputAvailable _ _ => true
  | Event.toolOutputError _ _ => true
  | _ => false

/-- `e` is a `tool-input-start` frame for call id `c`. -/
def isStartFor (c : String) : Event → Bool
  | Event.toolInputStart c2 _ => c2 == c
  | _ => false

/-- `e` is a `tool-input-delta` or `tool-input-available` frame for call id
`c` (the event kinds claim C2 orders after `tool-input-start`). -/
def isToolBodyFor (c : String) : Event → Bool
  | Event.toolInputDelta c2 _ => c2 == c
  | Event.toolInputAvailable c2 _ _ => c2 == c
  | _ => false

/-- Some `tool-input-start` frame for `c` occurs in `l`. -/
def hasStart (c : String) (l : List Event) : Bool := l.any (isStartFor c)

/-- Before the first `tool-input-start` frame for `c` (or to the end of the
list, if there is none), no `tool-input-delta`/`tool-input-available` frame
for `c` occurs — the ordering claim C2 makes, per call id. -/
def okFrom (c : String) : List Event → Bool
  | [] => true
  | e :: rest => if isStartFor c e then true else !isToolBodyFor c e && okFrom c rest

/-- The tool-call fragments carried by one choice, in stream order. -/
def choiceFrags (ch : Choice) : List ToolCallDelta :=
  match ch.delta with
  | some d => d.tool_calls
  | none => []

/-- The tool-call fragments carried by one chunk, in stream order. -/
def chunkFrags (c : Chunk) : List ToolCallDelta :=
  c.choices.foldr (fun ch acc => choiceFrags ch ++ acc) []

/-- All tool-call fragments of a stream, in delivery order. -/
def streamFrags : List Chunk → List ToolCallDelta
  | [] => []
  | c :: rest => chunkFrags c ++ streamFrags rest

/-- `g` carries the call id assigned to its index and a tool name. -/
def completeFragB (cid : Nat → String) (g : ToolCallDelta) : Bool :=
  g.id == some (cid g.index) &&
    match g.function with
    | some fc => fc.name.isSome
    | none => false

/-- Every fragment's id field is either absent or the id assigned to its
index (no fragment re-assigns a call id). -/
def idsConsistentB (cid : Nat → String) (frags : List ToolCallDelta) : Bool :=
  frags.all (fun g => g.id == none || g.id == some (cid g.index))

/-- The first fragment for index `i` in `frags`, if any, carries both id
and name. -/
def firstFragCompleteB (cid : Nat → String) (frags : List ToolCallDelta)
    (i : Nat) : Bool :=
  match frags.find? (fun g => g.index == i) with
  | some g => completeFragB cid g
  | none => true

/-- Well-formedness of a chunk stream, as the amended claim C2 assumes it:
for every tool-call index, the first fragment mentioning it carries both
the call id and the tool name, and no later fragment re-assigns the id. -/
def wellFormedToolStream (cid : Nat → String) (cs : List Chunk) : Bool :=
  idsConsistentB cid (streamFrags cs) &&
    ((streamFrags cs).map (fun g => g.index)).all
      (firstFragCompleteB cid (streamFrags cs))

/-- The tool-call indices present in the accumulator dict. -/
def keysOf (s : GenState) : List Nat := s.tool_calls_state.map Prod.fst

/-- Loop invariant tying the accumulator dict to the events emitted so far:
every recorded call has its assigned id, a name, has started, and its
`tool-input-start` frame is already out. -/
def TSInv (cid : Nat → String) (s : GenState) (evs : List Event) : Prop :=
  ∀ p ∈ s.tool_calls_state, p.2.id = some (cid p.1) ∧ p.2.name.isSome = true ∧
    p.2.started = true ∧ hasStart (cid p.1) evs = true

/-- Every index not yet recorded has a complete first fragment among the
fragments still to be processed. -/
def FirstsOK (cid : Nat → String) (s : GenState)
    (frags : List ToolCallDelta) : Prop :=
  ∀ i, i ∈ keysOf s ∨ firstFragCompleteB cid frags i = true

/-- The C2 ordering holds for every call id. -/
def OkAll (evs : List Event) : Prop := ∀ c, okFrom c evs = true

/-- A minimal concrete environment for evaluating the stream model. -/
def sampleEnv : StreamEnv := ⟨"m1", fun _ => none, fun _ => "err", fun _ => none⟩

/-- A stream delivering one text fragment and no finish reason. -/
def sampleTextChunks : List Chunk := [⟨[⟨none, some ⟨some "hi", []⟩⟩], none⟩]

/-- A stream whose single tool call arrives well-formed: the first fragment
carries id and name, a later fragment streams argument text. -/
def sampleToolChunks : List Chunk :=
  [⟨[⟨none, some ⟨none, [⟨0, some "call-1", some ⟨some "f", none⟩⟩]⟩⟩], none⟩,
   ⟨[⟨none, some ⟨none, [⟨0, none, some ⟨none, some "x"⟩⟩]⟩⟩], none⟩,
   ⟨[⟨some "tool_calls", some ⟨none, []⟩⟩], none⟩]

/-- A stream whose single tool call streams argument text while the tool
name is still unknown: the id is known, the name arrives only later. -/
def sampleBadToolChunks : List Chunk :=
  [⟨[⟨none, some ⟨none, [⟨0, some "call-1", some ⟨none, some "x"⟩⟩]⟩⟩], none⟩,
   ⟨[⟨some "tool_calls", some ⟨none, [⟨0, none, some ⟨some "f", none⟩⟩]⟩⟩], none⟩]

end AI

namespace Scraper

/-! ## Embedding of `src/backend/app/services/scraper.py`.

`httpx`, BeautifulSoup, pypdf and `urllib.parse` are modelled as oracle
fields of `WebEnv`; the file system written by `URLCrawler.crawl` is
modelled explicitly as a map from path to contents. -/

/-- The fields of an `httpx.Response` the code reads: the final URL, the
status code, the `content-type` header and the body text/bytes. -/
structure HttpResponse where
  url : String
  status_code : Nat
  contentType : String
  body : String
deriving DecidableEq

/-- External-world oracle: `fetch` models `client.get` (an `Except.error`
is a raised network error), `linksOf` the `<a href>` extraction of
BeautifulSoup, `netlocOf` `urlparse(url).netloc`, `pdfText` the
`extract_pdf_text` helper on a body (`none` models no extractable text or a
parse error), `pdfTitle` the pypdf metadata title, `stemOf`
`Path(urlparse(url).path).stem`, and `htmlExtract` the BeautifulSoup
text/title extraction of `scrape_html` (`none` models a raised parse
error). -/
structure WebEnv where
  fetch : String → Except String HttpResponse
  linksOf : String → List String
  netlocOf : String → String
  pdfText : String → Option String
  pdfTitle : String → Option String
  stemOf : String → String
  htmlExtract : String → Option (String × Option String)

/-- `ScrapeResult` (scraper.py lines 34-41). -/
structure ScrapeResult where
  url : String
  text : String
  title : Option String
  status_code : Nat
deriving DecidableEq

/-- The `URLCrawler` configuration set up in `__init__`
(scraper.py lines 162-179); `domain` is `urlparse(base_url).netloc`, the
include/exclude regex patterns are modelled as match predicates. -/
structure URLCrawler where
  base_url : String
  domain : String
  max_depth : Nat
  max_urls : Nat
  follow_external : Bool
  include_patterns : List (String → Bool)
  exclude_patterns : List (String → Bool)

/-- `URLCrawler.__init__` (scraper.py lines 162-179). -/
def URLCrawler.init (env : WebEnv) (base_url : String) (max_depth max_urls : Nat)
    (follow_external : Bool) (inc exc : List (String → Bool)) : URLCrawler :=
  ⟨base_url, env.netlocOf base_url, max_depth, max_urls, follow_external, inc, exc⟩

/-- `url.split("#")[0]` (scraper.py line 195). -/
def stripFragment (url : String) : String := (url.splitOn "#").headD ""

/-- `URLCrawler._normalize_url` (scraper.py lines 181-195). -/
def normalize_url (cr : URLCrawler) (env : WebEnv) (url : String) : Option String :=
  if !cr.follow_external && env.netlocOf url != cr.domain then none
  else if !cr.exclude_patterns.isEmpty && cr.exclude_patterns.any (fun p => p url) then none
  else if !cr.include_patterns.isEmpty && !cr.include_patterns.any (fun p => p url) then none
  else some (stripFragment url)

/-- `URLCrawler._extract_links` (scraper.py lines 197-209): normalize each
anchor href, keep the truthy ones not already visited. -/
def extract_links (cr : URLCrawler) (env : WebEnv) (visited : List String)
    (html : String) : List String :=
  (env.linksOf html).filterMap (fun href =>
    match normalize_url cr env href with
    | some n => if n != "" && !visited.contains n then some n else none
    | none => none)

/-- The `while` loop of `URLCrawler.crawl` (scraper.py lines 229-261).
`discovered` ghost-carries the depth at which each URL was discovered (the
Python list holds only the URLs — see `URLCrawler.crawl`), since claims
speak about those depths.  Per-URL fetch errors are non-fatal; links are
extracted only from `text/html` bodies; enqueueing happens only while
`len(discovered) < max_urls`. -/
def crawlLoop (env : WebEnv) (cr : URLCrawler) (visited : List String)
    (to_visit : List (String × Nat)) (discovered : List (String × Nat)) :
    List (String × Nat) :=
  match to_visit with
  | [] => discovered
  | (url, depth) :: rest =>
    if h : discovered.length < cr.max_urls then
      if visited.contains url || depth > cr.max_depth then
        crawlLoop env cr visited rest discovered
      else
        let visited2 := url :: visited
        let discovered2 := discovered ++ [(url, depth)]
        match env.fetch url with
        | Except.error _ => crawlLoop env cr visited2 rest discovered2
        | Except.ok resp =>
          -- `response.raise_for_status()` (line 240): a 4xx/5xx raises,
          -- is caught by the per-URL handler, and the loop continues
          if resp.status_code ≥ 400 then
            crawlLoop env cr visited2 rest discovered2
          else if subOccurs "text/html" resp.contentType then
            let new_links := extract_links cr env visited2 resp.body
            let enq :=
              if discovered2.length < cr.max_urls then
                new_links.map (fun l => (l, depth + 1))
              else []
            crawlLoop env cr visited2 (rest ++ enq) discovered2
          else if subOccurs "application/pdf" resp.contentType then
            crawlLoop env cr visited2 rest discovered2
          else
            crawlLoop env cr visited2 rest discovered2
    else discovered
termination_by (cr.max_urls - discovered.length, to_visit.length)
decreasing_by
  all_goals first
  | exact Prod.Lex.right _ (by simp)
  | exact Prod.Lex.left _ _ (by simp [List.length_append]; omega)

/-- The process file system, path ↦ contents. -/
def FileSys : Type := String → Option String

/-- `URLCrawler.crawl` (scraper.py lines 211-267): run the BFS loop seeded
with `(base_url, 0)`, then overwrite `urls.txt` in the working directory
with the newline-joined discovered URLs, and return those URLs. -/
def URLCrawler.crawl (env : WebEnv) (cr : URLCrawler) (fs : FileSys) :
    List String × FileSys :=
  let discovered_urls := (crawlLoop env cr [] [(cr.base_url, 0)] []).map Prod.fst
  (discovered_urls,
    fun p => if p = "urls.txt" then some (String.intercalate "\n" discovered_urls)
             else fs p)

/-- `scrape_pdf` (scraper.py lines 80-125): re-fetch the URL,
`raise_for_status` (status ≥ 400 raises `httpx.HTTPStatusError`, caught and
turned into `None`), extract the PDF text (empty/failed ⇒ `None`), choose a
title from the PDF metadata with the URL filename stem (or "PDF Document")
as fallback. -/
def scrape_pdf (env : WebEnv) (url : String) : Option ScrapeResult :=
  match env.fetch url with
  | Except.error _ => none
  | Except.ok resp =>
    if resp.status_code ≥ 400 then none
    else
      match env.pdfText resp.body with
      | none => none
      | some text =>
        if text = "" then none
        else
          let fallback :=
            if env.stemOf url = "" then "PDF Document" else env.stemOf url
          let title :=
            match env.pdfTitle resp.body with
            | some t => if t = "" then fallback else t
            | none => fallback
          some ⟨resp.url, text, some title, resp.status_code⟩

/-- `scrape_html` (scraper.py lines 128-156): BeautifulSoup text/title
extraction on the already-fetched response (a parse error yields `None`).
Note: no status validation happens on this path. -/
def scrape_html (env : WebEnv) (resp : HttpResponse) : Option ScrapeResult :=
  match env.htmlExtract resp.body with
  | none => none
  | some (text, title) => some ⟨resp.url, text, title, resp.status_code⟩

/-- `url if re.match(r"^https?://", url) else f"https://{url}"`
(scraper.py lines 296-298). -/
def normalizeScheme (url : String) : String :=
  if isPfxL "http://".data url.data || isPfxL "https://".data url.data then url
  else "https://" ++ url

/-- The body of the `for normalized_url in normalized_urls` loop of
`scrape` (scraper.py lines 302-332): fetch, route by content type
(`application/pdf` → `scrape_pdf`, `text/html` → `scrape_html`, otherwise
skip); any raised error skips the URL. -/
def processUrl (env : WebEnv) (url : String) : Option ScrapeResult :=
  match env.fetch url with
  | Except.error _ => none
  | Except.ok resp =>
    if subOccurs "application/pdf" resp.contentType then scrape_pdf env url
    else if subOccurs "text/html" resp.contentType then scrape_html env resp
    else none

/-- `scrape` (scraper.py lines 274-338): crawl from the base URL with the
default `URLCrawler` settings, normalize schemes, then extract each URL,
skipping failures. -/
def scrape (env : WebEnv) (base_url : String) (fs : FileSys) : List ScrapeResult :=
  let cr := URLCrawler.init env base_url 5 100 false [] []
  let urls := (URLCrawler.crawl env cr fs).1
  let normalized_urls := urls.map normalizeScheme
  normalized_urls.filterMap (processUrl env)

/-- A minimal concrete web environment: every fetch succeeds with an HTML
page without links. -/
def sampleWebEnv : WebEnv :=
  ⟨fun u => Except.ok ⟨u, 200, "text/html", "body"⟩, fun _ => [],
   fun _ => "site", fun _ => none, fun _ => none, fun _ => "stem",
   fun b => some (b, none)⟩

/-- A crawler configuration over `sampleWebEnv`. -/
def sampleCrawler : URLCrawler := ⟨"http://u", "site", 5, 3, false, [], []⟩

/-- The empty file system. -/
def emptyFS : FileSys := fun _ => none

/-- A web environment where every fetch succeeds but returns HTTP 404 with
an HTML body. -/
def badStatusEnv : WebEnv :=
  ⟨fun u => Except.ok ⟨u, 404, "text/html", "body"⟩, fun _ => [],
   fun _ => "site", fun _ => none, fun _ => none, fun _ => "stem",
   fun b => some (b, none)⟩

/-- A web environment where every fetch succeeds but returns HTTP 404 with
a PDF body. -/
def badPdfEnv : WebEnv :=
  ⟨fun u => Except.ok ⟨u, 404, "application/pdf", "body"⟩, fun _ => [],
   fun _ => "site", fun _ => some "text", fun _ => none, fun _ => "stem",
   fun b => some (b, none)⟩

end Scraper

namespace Rewriter

/-! ## Embedding of `src/backend/app/services/query_rewriter.py`.

The three LLM completions are modelled as oracle fields: `none` models a
raised exception in the generation call (caught by the corresponding
`except` block), `some content` the returned `message.content` after the
`or ""` / `or query` defaulting. -/

/-- `RewriteStrategy` (query_rewriter.py lines 13-19). -/
inductive RewriteStrategy where
  | expansion
  | simplification
  | reformulation
  | combined
deriving DecidableEq

/-- Oracle for the three `chat.completions.create` calls made by the
rewriter: the raw content returned for the expansion prompt and the
simplification/reformulation prompts. `none` models a raised exception. -/
structure RewriteEnv where
  expandContent : Option String
  simplifyContent : Option String
  reformContent : Option String

/-- Python truthiness + minimum-length bypass
(`if not query or len(query.strip()) < 3`). -/
def shortQuery (query : String) : Bool :=
  query == "" || (pyStrip query).length < 3

/-- `expand_query` (query_rewriter.py lines 33-74): split the completion
content into stripped non-empty lines, keep the first `num_variations`,
prepend the original query; any exception degrades to `[query]`. -/
def expand_query (env : RewriteEnv) (query : String) (num_variations : Nat) :
    List String :=
  if shortQuery query then [query]
  else
    match env.expandContent with
    | none => [query]
    | some content =>
      let variations :=
        ((content.splitOn "\n").map pyStrip).filter (fun l => l != "")
      query :: variations.take num_variations

/-- `simplified.strip().strip('"')` (query_rewriter.py line 107): strip
whitespace, then strip double quotes from both ends. -/
def stripQuotes (s : String) : String :=
  ⟨((s.data.dropWhile (· == '"')).reverse.dropWhile (· == '"')).reverse⟩

/-- `simplify_query` (query_rewriter.py lines 76-114): return the stripped
completion content (defaulting to the query), or the query on exception. -/
def simplify_query (env : RewriteEnv) (query : String) : String :=
  if shortQuery query then query
  else
    match env.simplifyContent with
    | none => query
    | some content =>
      let simplified := if content = "" then query else content
      stripQuotes (pyStrip simplified)

/-- `reformulate_query` (query_rewriter.py lines 116-166): same shape as
`simplify_query` with the reformulation prompt. -/
def reformulate_query (env : RewriteEnv) (query : String) : String :=
  if shortQuery query then query
  else
    match env.reformContent with
    | none => query
    | some content =>
      let reformulated := if content = "" then query else content
      stripQuotes (pyStrip reformulated)

/-- The dedup key `q.lower().strip()` (query_rewriter.py line 216). -/
def dedupKeyQ (q : String) : String := pyStrip (pyLower q)

/-- The duplicate-removal loop of `rewrite`
(query_rewriter.py lines 212-219): keep first-seen order, skip entries
whose case-folded stripped form is empty or already seen. -/
def dedupCI (seen : List String) : List String → List String
  | [] => []
  | q :: rest =>
    if dedupKeyQ q != "" && !seen.contains (dedupKeyQ q) then
      q :: dedupCI (dedupKeyQ q :: seen) rest
    else dedupCI seen rest

/-- `QueryRewriter.rewrite` (query_rewriter.py lines 168-228): bypass for
short queries, always include the original first, extend per strategy,
then deduplicate case-insensitively preserving order.  The inner generation
calls catch their own exceptions, so the outer `except` of `rewrite` is
unreachable and has no counterpart here. -/
def rewrite (env : RewriteEnv) (query : String) (strategy : RewriteStrategy) :
    List String :=
  if shortQuery query then [query]
  else
    let queries :=
      match strategy with
      | RewriteStrategy.expansion => [query] ++ expand_query env query 3
      | RewriteStrategy.simplification =>
        let simplified := simplify_query env query
        [query] ++ (if simplified ≠ query then [simplified] else [])
      | RewriteStrategy.reformulation =>
        let reformulated := reformulate_query env query
        [query] ++ (if reformulated ≠ query then [reformulated] else [])
      | RewriteStrategy.combined =>
        let base := [query] ++ expand_query env query 2
        let simplified := simplify_query env query
        let base2 := base ++ (if simplified ≠ query then [simplified] else [])
        let reformulated := reformulate_query env query
        base2 ++ (if reformulated ≠ query then [reformulated] else [])
    dedupCI [] queries

end Rewriter

namespace Retrieval

/-! ## Embedding of the retrieval merge of
`src/backend/app/services/embedding.py`, `retrieve_docs` lines 83-111:
the per-variant similarity search, the dict-based dedup keeping the lowest
score per content key, the ascending sort and the truncation to `k`.

`vectorstore.similarity_search_with_score` is an oracle; scores are
modelled as integers (lower = more similar), which preserves every ordering
property the code relies on. -/

/-- A langchain `Document` as used here: page content plus metadata. -/
structure Doc where
  page_content : String
  metadata : List (String × String)
deriving DecidableEq

/-- Oracle for `vectorstore.similarity_search_with_score(q, k)`; an
`Except.error` models a raised exception (swallowed per variant). -/
structure SearchEnv where
  search : String → Except String (List (Doc × Int))

/-- `doc.page_content[:100]`, the dedup key (embedding.py line 93): the
string made of the first 100 characters of the content. -/
def docKey (d : Doc) : String := ⟨d.page_content.data.take 100⟩

/-- One step of the dedup dicts `all_docs` / `doc_scores`
(embedding.py lines 91-98), embedded as a single insertion-ordered
association list keyed by the content key: keep the entry with the lowest
score, first insertion position wins. -/
def mergeStep (acc : List (String × Doc × Int)) (p : Doc × Int) :
    List (String × Doc × Int) :=
  match acc.find? (fun e => e.1 == docKey p.1) with
  | none => acc ++ [(docKey p.1, p.1, p.2)]
  | some e =>
    if p.2 < e.2.2 then
      acc.map (fun e2 =>
        if e2.1 == docKey p.1 then (docKey p.1, p.1, p.2) else e2)
    else acc

/-- Folding one variant's result list into the dicts. -/
def mergeResults (acc : List (String × Doc × Int)) :
    List (Doc × Int) → List (String × Doc × Int)
  | [] => acc
  | p :: rest => mergeResults (mergeStep acc p) rest

/-- The `for search_query in queries_to_search` loop
(embedding.py lines 86-101): a failed variant contributes nothing. -/
def mergeQueries (env : SearchEnv) (acc : List (String × Doc × Int)) :
    List String → List (String × Doc × Int)
  | [] => acc
  | q :: rest =>
    match env.search q with
    | Except.error _ => mergeQueries env acc rest
    | Except.ok results => mergeQueries env (mergeResults acc results) rest

/-- Stable ascending insertion by score (equal scores keep first-seen
order), modelling Python `sorted(..., key=lambda x: x[1])`. -/
def insertByScore (p : Doc × Int) : List (Doc × Int) → List (Doc × Int)
  | [] => [p]
  | q :: rest => if p.2 < q.2 then p :: q :: rest else q :: insertByScore p rest

/-- Model of `sorted` on the zipped `(doc, score)` pairs
(embedding.py lines 104-107). -/
def sortByScore : List (Doc × Int) → List (Doc × Int)
  | [] => []
  | p :: rest => insertByScore p (sortByScore rest)

/-- `retrieve_docs`, the merge/rank part (embedding.py lines 83-109),
parametrized by the list of query variants, returning the scored pairs
`sorted_docs[:k]`. -/
def retrieve_docs_scored (env : SearchEnv) (queries : List String) (k : Nat) :
    List (Doc × Int) :=
  let acc := mergeQueries env [] queries
  (sortByScore (acc.map (fun e => (e.2.1, e.2.2)))).take k

/-- `retrieve_docs` final result (embedding.py line 109): the documents
without their scores. -/
def retrieve_docs (env : SearchEnv) (queries : List String) (k : Nat) :
    List Doc :=
  (retrieve_docs_scored env queries k).map Prod.fst

/-- All `(doc, score)` pairs observed across all variants, failed variants
excluded (the concatenation of the per-variant result lists). -/
def allResults (env : SearchEnv) : List String → List (Doc × Int)
  | [] => []
  | q :: rest =>
    (match env.search q with
      | Except.error _ => []
      | Except.ok results => results) ++ allResults env rest

/-- The scores among a pair list carried by docs with the given dedup key. -/
def obsScores (ps : List (Doc × Int)) (key : String) : List Int :=
  ps.filterMap (fun p => if docKey p.1 == key then some p.2 else none)

/-- All scores observed for a given dedup key across all variants. -/
def observedScores (env : SearchEnv) (queries : List String) (key : String) :
    List Int :=
  obsScores (allResults env queries) key

/-- Invariant of the dedup dicts relative to the pairs processed so far:
keys are distinct, every entry's key is its doc's content key and its score
is the minimum score observed for that key, and every observed key has an
entry. -/
def MInv (ps : List (Doc × Int)) (acc : List (String × Doc × Int)) : Prop :=
  acc.Pairwise (fun a b => a.1 ≠ b.1) ∧
  (∀ e ∈ acc, e.1 = docKey e.2.1 ∧ e.2.2 ∈ obsScores ps e.1 ∧
    ∀ s2 ∈ obsScores ps e.1, e.2.2 ≤ s2) ∧
  (∀ k, obsScores ps k ≠ [] → ∃ e ∈ acc, e.1 = k)

/-- Two chunks sharing their first 100 characters but differing afterwards:
the merge returns only the first. -/
def collideDoc1 : Doc := ⟨"aaaaaaaaaaaaaaaaaaaaaaaaaaaaaaaaaaaaaaaaaaaaaaaaaaaaaaaaaaaaaaaaaaaaaaaaaaaaaaaaaaaaaaaaaaaaaaaaaaaax", []⟩

def collideDoc2 : Doc := ⟨"aaaaaaaaaaaaaaaaaaaaaaaaaaaaaaaaaaaaaaaaaaaaaaaaaaaaaaaaaaaaaaaaaaaaaaaaaaaaaaaaaaaaaaaaaaaaaaaaaaaay", []⟩

def collideEnv : SearchEnv :=
  ⟨fun _ => Except.ok [(collideDoc1, 1), (collideDoc2, 2)]⟩


end Retrieval

/-! # Theorems -/

namespace AI

theorem persistLoop_fst (fallbackId chat_id : String) (user_id : Int)
    (ui : List UIMessage) :
    ∀ (evs : List Event) (collected : List String) (mid : Option String),
      (persistLoop fallbackId chat_id user_id ui evs collected mid).1 = evs := by
  intro evs
  induction evs with
  | nil => intro collected mid; rfl
  | cons e rest ih =>
    intro collected mid
    simp only [persistLoop]
    exact congrArg (e :: ·) (ih _ _)

/-- C7: the persistence wrapper yields exactly the wrapped generator's
event sequence — no frame is added, dropped, reordered or modified. -/
theorem persistence_passthrough (env : StreamEnv) (fallbackId : String)
    (chunks : List Chunk) (exn : Option String) (ui : List UIMessage)
    (chat_id : String) (user_id : Int) :
    (stream_text_with_persistence env fallbackId chunks exn ui chat_id user_id).1
      = stream_text env chunks exn :=
  persistLoop_fst fallbackId chat_id user_id ui _ [] none

theorem mem_maybeStart {st : ToolState} {e : Event}
    (h : e ∈ (maybeStart st).2) : isLoopEvent e = true := by
  unfold maybeStart at h
  split at h
  · split at h <;> simp_all [isLoopEvent]
  · simp_all

theorem mem_idPhase {st : ToolState} {tcd : ToolCallDelta} {e : Event}
    (h : e ∈ (idPhase st tcd).2) : isLoopEvent e = true := by
  unfold idPhase at h
  split at h
  · exact mem_maybeStart h
  · simp at h

theorem mem_namePhase {st : ToolState} {fc : FunctionDelta} {e : Event}
    (h : e ∈ (namePhase st fc).2) : isLoopEvent e = true := by
  unfold namePhase at h
  split at h
  · exact mem_maybeStart h
  · simp at h

theorem mem_argsPhase {st : ToolState} {fc : FunctionDelta} {e : Event}
    (h : e ∈ (argsPhase st fc).2) : isLoopEvent e = true := by
  unfold argsPhase at h
  split at h
  · split at h
    · simp only [List.mem_append] at h
      rcases h with h | h
      · exact mem_maybeStart h
      · split at h <;> simp_all [isLoopEvent]
    · simp at h
  · simp at h

theorem mem_processToolCallDelta {st : ToolState} {tcd : ToolCallDelta}
    {e : Event} (h : e ∈ (processToolCallDelta st tcd).2) :
    isLoopEvent e = true := by
  unfold processToolCallDelta at h
  split at h
  · exact mem_idPhase h
  · simp only [List.mem_append] at h
    rcases h with (h | h) | h
    · exact mem_idPhase h
    · exact mem_namePhase h
    · exact mem_argsPhase h

theorem mem_processToolCallDeltas {e : Event} :
    ∀ {frags : List ToolCallDelta} {s : GenState},
      e ∈ (processToolCallDeltas s frags).2 → isLoopEvent e = true := by
  intro frags
  induction frags with
  | nil => intro s h; simp [processToolCallDeltas] at h
  | cons tcd rest ih =>
    intro s h
    simp only [processToolCallDeltas, List.mem_append] at h
    rcases h with h | h
    · exact mem_processToolCallDelta h
    · exact ih h

theorem mem_contentPhase {s : GenState} {delta : Delta} {e : Event}
    (h : e ∈ (contentPhase s delta).2) : isLoopEvent e = true := by
  unfold contentPhase at h
  split at h
  · split at h <;> simp at h
    · simp [h, isLoopEvent]
    · rcases h with rfl | rfl <;> rfl
  · simp at h

theorem mem_processChoice {s : GenState} {ch : Choice} {e : Event}
    (h : e ∈ (processChoice s ch).2) : isLoopEvent e = true := by
  unfold processChoice at h
  split at h
  · simp at h
  · simp only [List.mem_append] at h
    rcases h with h | h
    · exact mem_contentPhase h
    · exact mem_processToolCallDeltas h

theorem mem_processChoices {e : Event} :
    ∀ {chs : List Choice} {s : GenState},
      e ∈ (processChoices s chs).2 → isLoopEvent e = true := by
  intro chs
  induction chs with
  | nil => intro s h; simp [processChoices] at h
  | cons ch rest ih =>
    intro s h
    simp only [processChoices, List.mem_append] at h
    rcases h with h | h
    · exact mem_processChoice h
    · exact ih h

theorem mem_processChunk {s : GenState} {c : Chunk} {e : Event}
    (h : e ∈ (processChunk s c).2) : isLoopEvent e = true := by
  unfold processChunk at h
  split at h
  · split at h <;> exact mem_processChoices h
  · exact mem_processChoices h

theorem mem_runChunks {e : Event} :
    ∀ {cs : List Chunk} {s : GenState},
      e ∈ (runChunks s cs).2 → isLoopEvent e = true := by
  intro cs
  induction cs with
  | nil => intro s h; simp [runChunks] at h
  | cons c rest ih =>
    intro s h
    simp only [runChunks, List.mem_append] at h
    rcases h with h | h
    · exact mem_processChunk h
    · exact ih h

theorem mem_toolDispatchEvents {env : StreamEnv} {c n : String} {v : ArgVal}
    {e : Event} (h : e ∈ toolDispatchEvents env c n v) :
    isToolPhaseEvent e = true := by
  unfold toolDispatchEvents at h
  split at h
  · simp at h; rcases h with rfl | rfl <;> rfl
  · split at h
    · simp at h; rcases h with rfl | rfl <;> rfl
    · simp at h; rcases h with rfl | rfl <;> rfl

theorem mem_toolParseEvents {env : StreamEnv} {st : ToolState} {c n : String}
    {e : Event} (h : e ∈ toolParseEvents env st c n) :
    isToolPhaseEvent e = true := by
  unfold toolParseEvents at h
  split at h
  · simp at h; simp [h, isToolPhaseEvent]
  · exact mem_toolDispatchEvents h

theorem mem_processFinishedTool {env : StreamEnv} {st : ToolState} {e : Event}
    (h : e ∈ processFinishedTool env st) : isToolPhaseEvent e = true := by
  unfold processFinishedTool at h
  split at h
  · simp only [List.mem_append] at h
    rcases h with h | h
    · split at h <;> simp at h; simp [h, isToolPhaseEvent]
    · exact mem_toolParseEvents h
  · simp at h

theorem mem_toolPhaseAux {env : StreamEnv} {s : GenState} {e : Event} :
    ∀ {ks : List Nat},
      e ∈ ks.foldr (fun i acc =>
          (match lookupTC s.tool_calls_state i with
            | some st => processFinishedTool env st
            | none => []) ++ acc) [] →
      isToolPhaseEvent e = true := by
  intro ks
  induction ks with
  | nil => intro h; simp at h
  | cons i ks ih =>
    intro h
    simp only [List.foldr_cons, List.mem_append] at h
    rcases h with h | h
    · split at h
      · exact mem_processFinishedTool h
      · simp at h
    · exact ih h

theorem mem_toolPhase {env : StreamEnv} {s : GenState} {e : Event}
    (h : e ∈ toolPhase env s) : isToolPhaseEvent e = true := by
  unfold toolPhase at h
  exact mem_toolPhaseAux h

theorem done_not_mem_stopClose (s : GenState) : Event.done ∉ stopCloseEvents s := by
  unfold stopCloseEvents; split <;> simp

theorem done_not_mem_finalClose (s : GenState) : Event.done ∉ finalCloseEvents s := by
  unfold finalCloseEvents; split <;> simp

theorem done_not_mem_toolPhaseEvents (env : StreamEnv) (s : GenState) :
    Event.done ∉ toolPhaseEvents env s := by
  unfold toolPhaseEvents; split
  · intro hh; simpa [isToolPhaseEvent] using mem_toolPhase hh
  · simp

theorem done_not_mem_runChunks (chunks : List Chunk) (s : GenState) :
    Event.done ∉ (runChunks s chunks).2 := by
  intro h; simpa [isLoopEvent] using mem_runChunks h

/-- C1: every run of the streaming generator — over any chunk sequence,
completing normally or failing at any point — emits a sequence that begins
with the `start` event and ends with exactly one terminal sentinel
(`data: [DONE]`), with no events after the sentinel. -/
theorem stream_text_well_framed (env : StreamEnv) (chunks : List Chunk)
    (exn : Option String) :
    ∃ pre, stream_text env chunks exn
        = Event.start env.msgId :: (pre ++ [Event.done]) ∧
      Event.done ∉ pre := by
  cases exn with
  | some e =>
    refine ⟨(runChunks initState chunks).2 ++ [Event.error e], ?_, ?_⟩
    · simp [stream_text]
    · intro h
      rcases List.mem_append.mp h with h | h
      · exact done_not_mem_runChunks chunks initState h
      · simp at h
  | none =>
    refine ⟨(runChunks initState chunks).2 ++
      (stopCloseEvents (runChunks initState chunks).1 ++
        toolPhaseEvents env (runChunks initState chunks).1 ++
        finalCloseEvents (runChunks initState chunks).1 ++
        [Event.finish (finishMeta (runChunks initState chunks).1)]), ?_, ?_⟩
    · simp [stream_text, postPhase]
    · intro h
      simp only [List.mem_append, List.mem_singleton] at h
      rcases h with h | (((h | h) | h) | h)
      · exact done_not_mem_runChunks chunks initState h
      · exact done_not_mem_stopClose _ h
      · exact done_not_mem_toolPhaseEvents env _ h
      · exact done_not_mem_finalClose _ h
      · simp at h

theorem textStart_not_mem_maybeStart {t : String} {st : ToolState} :
    Event.textStart t ∉ (maybeStart st).2 := by
  unfold maybeStart; split
  · split <;> simp
  · simp

theorem textStart_not_mem_idPhase {t : String} {st : ToolState}
    {tcd : ToolCallDelta} : Event.textStart t ∉ (idPhase st tcd).2 := by
  unfold idPhase; split
  · exact textStart_not_mem_maybeStart
  · simp

theorem textStart_not_mem_namePhase {t : String} {st : ToolState}
    {fc : FunctionDelta} : Event.textStart t ∉ (namePhase st fc).2 := by
  unfold namePhase; split
  · exact textStart_not_mem_maybeStart
  · simp

theorem textStart_not_mem_argsPhase {t : String} {st : ToolState}
    {fc : FunctionDelta} : Event.textStart t ∉ (argsPhase st fc).2 := by
  unfold argsPhase; split
  · split
    · intro h
      rcases List.mem_append.mp h with h | h
      · exact textStart_not_mem_maybeStart h
      · split at h <;> simp at h
    · simp
  · simp

theorem textStart_not_mem_ptcd {t : String} {st : ToolState}
    {tcd : ToolCallDelta} :
    Event.textStart t ∉ (processToolCallDelta st tcd).2 := by
  unfold processToolCallDelta; split
  · exact textStart_not_mem_idPhase
  · intro h
    rcases List.mem_append.mp h with h | h
    rcases List.mem_append.mp h with h | h
    · exact textStart_not_mem_idPhase h
    · exact textStart_not_mem_namePhase h
    · exact textStart_not_mem_argsPhase h

theorem textStart_not_mem_ptcds {t : String} :
    ∀ {frags : List ToolCallDelta} {s : GenState},
      Event.textStart t ∉ (processToolCallDeltas s frags).2 := by
  intro frags
  induction frags with
  | nil => intro s h; simp [processToolCallDeltas] at h
  | cons tcd rest ih =>
    intro s h
    rcases List.mem_append.mp h with h | h
    · exact textStart_not_mem_ptcd h
    · exact ih h

theorem ptcds_shape (frags : List ToolCallDelta) :
    ∀ s : GenState, ∃ tcs,
      (processToolCallDeltas s frags).1 = { s with tool_calls_state := tcs } := by
  induction frags with
  | nil => intro s; exact ⟨s.tool_calls_state, rfl⟩
  | cons tcd rest ih =>
    intro s
    obtain ⟨tcs, h⟩ := ih { s with
      tool_calls_state := setTC s.tool_calls_state tcd.index
        (processToolCallDelta
          ((lookupTC s.tool_calls_state tcd.index).getD freshToolState) tcd).1 }
    exact ⟨tcs, h⟩

theorem processChoices_cons (s : GenState) (ch : Choice) (rest : List Choice) :
    processChoices s (ch :: rest)
      = ((processChoices (processChoice s ch).1 rest).1,
         (processChoice s ch).2 ++ (processChoices (processChoice s ch).1 rest).2) :=
  rfl

theorem runChunks_cons (s : GenState) (c : Chunk) (rest : List Chunk) :
    runChunks s (c :: rest)
      = ((runChunks (processChunk s c).1 rest).1,
         (processChunk s c).2 ++ (runChunks (processChunk s c).1 rest).2) :=
  rfl

theorem processChunk_proj (s : GenState) (c : Chunk) :
    (processChunk s c).1.text_started = (processChoices s c.choices).1.text_started ∧
    (processChunk s c).1.text_finished = (processChoices s c.choices).1.text_finished ∧
    (processChunk s c).1.finish_reason = (processChoices s c.choices).1.finish_reason ∧
    (processChunk s c).1.tool_calls_state
      = (processChoices s c.choices).1.tool_calls_state ∧
    (processChunk s c).2 = (processChoices s c.choices).2 := by
  unfold processChunk
  split
  · split <;> exact ⟨rfl, rfl, rfl, rfl, rfl⟩
  · exact ⟨rfl, rfl, rfl, rfl, rfl⟩

theorem contentPhase_ts_mono {s : GenState} {d : Delta}
    (h : s.text_started = true) : (contentPhase s d).1.text_started = true := by
  rcases hd : d.content with _ | content
  · simpa [contentPhase, hd] using h
  · cases hts : s.text_started
    · rw [hts] at h; exact absurd h (by simp)
    · simp [contentPhase, hd, hts]

theorem contentPhase_ts_emit {s : GenState} {d : Delta} {t : String}
    (h : Event.textStart t ∈ (contentPhase s d).2) :
    (contentPhase s d).1.text_started = true := by
  rcases hd : d.content with _ | content
  · simp [contentPhase, hd] at h
  · cases hts : s.text_started
    · simp [contentPhase, hd, hts]
    · simp [contentPhase, hd, hts]

theorem recordFinish_ts (s : GenState) (ch : Choice) :
    (recordFinish s ch).text_started = s.text_started := by
  unfold recordFinish; split <;> rfl

theorem recordFinish_tf (s : GenState) (ch : Choice) :
    (recordFinish s ch).text_finished = s.text_finished := by
  unfold recordFinish; split <;> rfl

theorem contentPhase_tf (s : GenState) (d : Delta) :
    (contentPhase s d).1.text_finished = s.text_finished := by
  unfold contentPhase; split
  · split <;> rfl
  · rfl

theorem processChoice_ts_mono {s : GenState} {ch : Choice}
    (h : s.text_started = true) : (processChoice s ch).1.text_started = true := by
  unfold processChoice
  split
  · rw [recordFinish_ts]; exact h
  · obtain ⟨tcs, hsh⟩ := ptcds_shape _ (contentPhase (recordFinish s ch) _).1
    rw [hsh]
    exact contentPhase_ts_mono (by rw [recordFinish_ts]; exact h)

theorem processChoice_ts_emit {s : GenState} {ch : Choice} {t : String}
    (h : Event.textStart t ∈ (processChoice s ch).2) :
    (processChoice s ch).1.text_started = true := by
  unfold processChoice at h ⊢
  split at h
  · simp at h
  · next delta hd =>
    obtain ⟨tcs, hsh⟩ := ptcds_shape delta.tool_calls
      (contentPhase (recordFinish s ch) delta).1
    rw [hsh]
    rcases List.mem_append.mp h with h | h
    · exact contentPhase_ts_emit h
    · exact absurd h textStart_not_mem_ptcds

theorem processChoice_tf (s : GenState) (ch : Choice) :
    (processChoice s ch).1.text_finished = s.text_finished := by
  unfold processChoice
  split
  · exact recordFinish_tf s ch
  · next delta hd =>
    obtain ⟨tcs, hsh⟩ := ptcds_shape delta.tool_calls
      (contentPhase (recordFinish s ch) delta).1
    rw [hsh]
    rw [show ({ (contentPhase (recordFinish s ch) delta).1 with
        tool_calls_state := tcs } : GenState).text_finished
      = (contentPhase (recordFinish s ch) delta).1.text_finished from rfl]
    rw [contentPhase_tf, recordFinish_tf]

theorem processChoices_ts_mono {chs : List Choice} :
    ∀ {s : GenState}, s.text_started = true →
      (processChoices s chs).1.text_started = true := by
  induction chs with
  | nil => intro s h; exact h
  | cons ch rest ih =>
    intro s h
    rw [processChoices_cons]
    exact ih (processChoice_ts_mono h)

theorem processChoices_ts_emit {t : String} {chs : List Choice} :
    ∀ {s : GenState}, Event.textStart t ∈ (processChoices s chs).2 →
      (processChoices s chs).1.text_started = true := by
  induction chs with
  | nil => intro s h; simp [processChoices] at h
  | cons ch rest ih =>
    intro s h
    rw [processChoices_cons] at h ⊢
    rcases List.mem_append.mp h with h | h
    · exact processChoices_ts_mono (processChoice_ts_emit h)
    · exact ih h

theorem processChoices_tf (chs : List Choice) :
    ∀ s : GenState, (processChoices s chs).1.text_finished = s.text_finished := by
  induction chs with
  | nil => intro s; rfl
  | cons ch rest ih =>
    intro s
    rw [processChoices_cons, ih, processChoice_tf]

theorem processChunk_ts_mono {s : GenState} {c : Chunk}
    (h : s.text_started = true) : (processChunk s c).1.text_started = true := by
  rw [(processChunk_proj s c).1]
  exact processChoices_ts_mono h

theorem processChunk_ts_emit {s : GenState} {c : Chunk} {t : String}
    (h : Event.textStart t ∈ (processChunk s c).2) :
    (processChunk s c).1.text_started = true := by
  rw [(processChunk_proj s c).1]
  rw [(processChunk_proj s c).2.2.2.2] at h
  exact processChoices_ts_emit h

theorem processChunk_tf (s : GenState) (c : Chunk) :
    (processChunk s c).1.text_finished = s.text_finished := by
  rw [(processChunk_proj s c).2.1]
  exact processChoices_tf c.choices s

theorem runChunks_ts_mono {cs : List Chunk} :
    ∀ {s : GenState}, s.text_started = true →
      (runChunks s cs).1.text_started = true := by
  induction cs with
  | nil => intro s h; exact h
  | cons c rest ih =>
    intro s h
    rw [runChunks_cons]
    exact ih (processChunk_ts_mono h)

theorem runChunks_ts_emit {t : String} {cs : List Chunk} :
    ∀ {s : GenState}, Event.textStart t ∈ (runChunks s cs).2 →
      (runChunks s cs).1.text_started = true := by
  induction cs with
  | nil => intro s h; simp [runChunks] at h
  | cons c rest ih =>
    intro s h
    rw [runChunks_cons] at h ⊢
    rcases List.mem_append.mp h with h | h
    · exact runChunks_ts_mono (processChunk_ts_emit h)
    · exact ih h

theorem runChunks_tf (cs : List Chunk) :
    ∀ s : GenState, (runChunks s cs).1.text_finished = s.text_finished := by
  induction cs with
  | nil => intro s; rfl
  | cons c rest ih =>
    intro s
    rw [runChunks_cons, ih, processChunk_tf]

theorem textStart_not_mem_postPhase (env : StreamEnv) (s : GenState)
    (t : String) : Event.textStart t ∉ postPhase env s := by
  unfold postPhase
  intro h
  simp only [List.mem_append, List.mem_singleton] at h
  rcases h with ((h | h) | h) | h
  · unfold stopCloseEvents at h; split at h <;> simp at h
  · unfold toolPhaseEvents at h
    split at h
    · simpa [isToolPhaseEvent] using mem_toolPhase h
    · simp at h
  · unfold finalCloseEvents at h; split at h <;> simp at h
  · simp at h

/-- C9: in every non-exceptional run that emitted `text-start`, a matching
`text-end` is emitted before the `finish` event — for every finish reason,
including `tool_calls` and an absent finish reason, not only "stop". -/
theorem text_span_closed_before_finish (env : StreamEnv) (chunks : List Chunk)
    (h : Event.textStart textStreamId ∈ stream_text env chunks none) :
    ∃ l₁ l₂ fm, stream_text env chunks none
      = l₁ ++ Event.textEnd textStreamId ::
          (l₂ ++ [Event.finish fm, Event.done]) := by
  have hmem : Event.textStart textStreamId ∈ (runChunks initState chunks).2 := by
    unfold stream_text at h
    rcases List.mem_cons.mp h with h | h
    · exact absurd h (by simp)
    · rcases List.mem_append.mp h with h | h
      · exact h
      · exact absurd h (textStart_not_mem_postPhase env _ _)
  have hts : (runChunks initState chunks).1.text_started = true :=
    runChunks_ts_emit hmem
  have htf : (runChunks initState chunks).1.text_finished = false :=
    runChunks_tf chunks initState
  by_cases hstop :
      ((runChunks initState chunks).1.finish_reason == some "stop") = true
  · refine ⟨Event.start env.msgId :: (runChunks initState chunks).2,
      toolPhaseEvents env (runChunks initState chunks).1,
      finishMeta (runChunks initState chunks).1, ?_⟩
    simp [stream_text, postPhase, stopCloseEvents, finalCloseEvents,
      textFinishedAfterStop, hstop, hts, htf]
  · refine ⟨Event.start env.msgId ::
      ((runChunks initState chunks).2 ++
        toolPhaseEvents env (runChunks initState chunks).1),
      [], finishMeta (runChunks initState chunks).1, ?_⟩
    simp [stream_text, postPhase, stopCloseEvents, finalCloseEvents,
      textFinishedAfterStop, hstop, hts, htf]

theorem okFrom_append (c : String) (l1 l2 : List Event) :
    okFrom c (l1 ++ l2) = (okFrom c l1 && (hasStart c l1 || okFrom c l2)) := by
  induction l1 with
  | nil => simp [okFrom, hasStart]
  | cons e rest ih =>
    by_cases hs : isStartFor c e = true
    · simp [okFrom, hasStart, hs]
    · simp only [Bool.not_eq_true] at hs
      simp [okFrom, hasStart, hs, ih, Bool.and_assoc]

theorem hasStart_append (c : String) (l1 l2 : List Event) :
    hasStart c (l1 ++ l2) = (hasStart c l1 || hasStart c l2) := by
  simp [hasStart, List.any_append]

theorem hasStart_mono {c : String} {l1 : List Event} (l2 : List Event)
    (h : hasStart c l1 = true) : hasStart c (l1 ++ l2) = true := by
  simp [hasStart_append, h]

theorem okAll_append_of {evs es : List Event} (hok : OkAll evs)
    (h : ∀ c, hasStart c evs = true ∨ okFrom c es = true) :
    OkAll (evs ++ es) := by
  intro c
  rw [okFrom_append, hok c]
  rcases h c with hc | hc <;> simp [hc]

theorem okFrom_of_no_tool {c : String} {es : List Event}
    (h : ∀ e ∈ es, isToolBodyFor c e = false) : okFrom c es = true := by
  induction es with
  | nil => rfl
  | cons e rest ih =>
    by_cases hs : isStartFor c e = true
    · simp [okFrom, hs]
    · simp only [Bool.not_eq_true] at hs
      simp [okFrom, hs, h e (by simp), ih (fun e2 he2 => h e2 (by simp [he2]))]

theorem lookupTC_mem {s : List (Nat × ToolState)} {i : Nat} {st : ToolState}
    (h : lookupTC s i = some st) : (i, st) ∈ s := by
  unfold lookupTC at h
  rcases hf : s.find? (fun p => p.1 == i) with _ | p
  · rw [hf] at h; simp at h
  · rw [hf] at h
    have hp := List.find?_some hf
    have hmem := List.mem_of_find?_eq_some hf
    simp only [beq_iff_eq] at hp
    simp only [Option.map] at h
    obtain ⟨j, st2⟩ := p
    simp only at hp h
    injection h with h2
    subst hp; subst h2
    exact hmem

theorem lookupTC_none_keys {s : List (Nat × ToolState)} {i : Nat}
    (h : lookupTC s i = none) : i ∉ s.map Prod.fst := by
  unfold lookupTC at h
  rcases hf : s.find? (fun p => p.1 == i) with _ | p
  · intro hmem
    rcases List.mem_map.mp hmem with ⟨p, hp, hfst⟩
    have := List.find?_eq_none.mp hf p hp
    simp [hfst] at this
  · rw [hf] at h; simp at h

theorem mem_setTC {s : List (Nat × ToolState)} {i j : Nat}
    {st st2 : ToolState} (h : (j, st2) ∈ setTC s i st) :
    (j, st2) ∈ s ∨ (j = i ∧ st2 = st) := by
  induction s with
  | nil => simp [setTC] at h; exact Or.inr h
  | cons p rest ih =>
    unfold setTC at h
    split at h
    · rcases List.mem_cons.mp h with h | h
      · injection h with h1 h2
        exact Or.inr ⟨h1, h2⟩
      · left; exact List.mem_cons_of_mem p h
    · rcases List.mem_cons.mp h with h | h
      · left; exact h ▸ List.mem_cons_self p rest
      · rcases ih h with h2 | h2
        · left; exact List.mem_cons_of_mem p h2
        · right; exact h2

theorem keys_setTC_of_mem {s : List (Nat × ToolState)} {i j : Nat}
    {st : ToolState} (h : j ∈ s.map Prod.fst) :
    j ∈ (setTC s i st).map Prod.fst := by
  induction s with
  | nil => simp at h
  | cons p rest ih =>
    unfold setTC
    split
    · next heq => simpa [heq] using h
    · rcases List.mem_map.mp h with ⟨q, hq, hfst⟩
      rcases List.mem_cons.mp hq with hq | hq
      · subst hq; simp [hfst]
      · simp only [List.map_cons, List.mem_cons]
        exact Or.inr (ih (List.mem_map.mpr ⟨q, hq, hfst⟩))

theorem keys_setTC_self (s : List (Nat × ToolState)) (i : Nat)
    (st : ToolState) : i ∈ (setTC s i st).map Prod.fst := by
  induction s with
  | nil => simp [setTC]
  | cons p rest ih =>
    unfold setTC
    split
    · simp
    · simp only [List.map_cons, List.mem_cons]
      exact Or.inr ih

theorem ptcd_existing (c0 n0 : String) (args0 : String) (i : Nat)
    (gid : Option String) (gfn : Option FunctionDelta)
    (hid : gid = none ∨ gid = some c0) :
    (processToolCallDelta ⟨some c0, some n0, args0, true⟩ ⟨i, gid, gfn⟩).1.id
        = some c0 ∧
    (processToolCallDelta ⟨some c0, some n0, args0, true⟩ ⟨i, gid, gfn⟩).1.name.isSome
        = true ∧
    (processToolCallDelta ⟨some c0, some n0, args0, true⟩ ⟨i, gid, gfn⟩).1.started
        = true ∧
    ∀ e ∈ (processToolCallDelta ⟨some c0, some n0, args0, true⟩ ⟨i, gid, gfn⟩).2,
      ∃ a, e = Event.toolInputDelta c0 a := by
  rcases hid with rfl | rfl <;>
    rcases gfn with _ | ⟨fname, fargs⟩ <;>
    [skip; (rcases fname with _ | n1 <;> rcases fargs with _ | a);
     skip; (rcases fname with _ | n1 <;> rcases fargs with _ | a)] <;>
    simp [processToolCallDelta, idPhase, namePhase, argsPhase, maybeStart] <;>
    by_cases ha : a = "" <;>
    simp [ha]

theorem ptcd_fresh (c n : String) (i : Nat) (fargs : Option String) :
    (processToolCallDelta freshToolState ⟨i, some c, some ⟨some n, fargs⟩⟩).1.id
        = some c ∧
    (processToolCallDelta freshToolState
        ⟨i, some c, some ⟨some n, fargs⟩⟩).1.name.isSome = true ∧
    (processToolCallDelta freshToolState
        ⟨i, some c, some ⟨some n, fargs⟩⟩).1.started = true ∧
    ((processToolCallDelta freshToolState ⟨i, some c, some ⟨some n, fargs⟩⟩).2
        = [Event.toolInputStart c n] ∨
      ∃ a, (processToolCallDelta freshToolState ⟨i, some c, some ⟨some n, fargs⟩⟩).2
        = [Event.toolInputStart c n, Event.toolInputDelta c a]) := by
  rcases fargs with _ | a
  · simp [processToolCallDelta, idPhase, namePhase, argsPhase, maybeStart,
      freshToolState]
  · by_cases ha : a = "" <;>
      simp [processToolCallDelta, idPhase, namePhase, argsPhase, maybeStart,
        freshToolState, ha]

theorem firstFragCompleteB_cons_ne {cid : Nat → String} {g : ToolCallDelta}
    {l : List ToolCallDelta} {j : Nat} (h : g.index ≠ j) :
    firstFragCompleteB cid (g :: l) j = firstFragCompleteB cid l j := by
  unfold firstFragCompleteB
  rw [List.find?_cons_of_neg]
  simpa using h

theorem firstFragCompleteB_cons_self {cid : Nat → String} {g : ToolCallDelta}
    {l : List ToolCallDelta} :
    firstFragCompleteB cid (g :: l) g.index = completeFragB cid g := by
  unfold firstFragCompleteB
  rw [List.find?_cons_of_pos]
  simp

theorem completeFrag_spec {cid : Nat → String} {g : ToolCallDelta}
    (h : completeFragB cid g = true) :
    g.id = some (cid g.index) ∧ ∃ n fargs, g.function = some ⟨some n, fargs⟩ := by
  unfold completeFragB at h
  rcases g with ⟨i, gid, _ | ⟨fname, fargs⟩⟩
  · simp at h
  · simp only [Bool.and_eq_true, beq_iff_eq] at h
    rcases fname with _ | n
    · simp at h
    · exact ⟨h.1, n, fargs, rfl⟩

theorem okFrom_start_only (c c0 n : String) :
    okFrom c [Event.toolInputStart c0 n] = true := by
  by_cases h : c0 = c <;> simp [okFrom, isStartFor, isToolBodyFor, h]

theorem okFrom_start_delta (c c0 n a : String) :
    okFrom c [Event.toolInputStart c0 n, Event.toolInputDelta c0 a] = true := by
  by_cases h : c0 = c <;> simp [okFrom, isStartFor, isToolBodyFor, h]

theorem ptcds_cons (s : GenState) (g : ToolCallDelta)
    (rest : List ToolCallDelta) :
    processToolCallDeltas s (g :: rest)
      = ((processToolCallDeltas { s with
            tool_calls_state := setTC s.tool_calls_state g.index
              (processToolCallDelta
                ((lookupTC s.tool_calls_state g.index).getD freshToolState)
                g).1 } rest).1,
        (processToolCallDelta
            ((lookupTC s.tool_calls_state g.index).getD freshToolState) g).2 ++
          (processToolCallDeltas { s with
            tool_calls_state := setTC s.tool_calls_state g.index
              (processToolCallDelta
                ((lookupTC s.tool_calls_state g.index).getD freshToolState)
                g).1 } rest).2) := rfl

theorem ptcds_inv (cid : Nat → String) :
    ∀ (frags F : List ToolCallDelta) (s : GenState) (evs : List Event),
      TSInv cid s evs → FirstsOK cid s (frags ++ F) →
      idsConsistentB cid (frags ++ F) = true → OkAll evs →
      TSInv cid (processToolCallDeltas s frags).1
          (evs ++ (processToolCallDeltas s frags).2) ∧
      OkAll (evs ++ (processToolCallDeltas s frags).2) ∧
      FirstsOK cid (processToolCallDeltas s frags).1 F := by
  intro frags
  induction frags with
  | nil =>
    intro F s evs hinv hfirst hids hok
    refine ⟨?_, ?_, ?_⟩
    · simpa [processToolCallDeltas] using hinv
    · simpa [processToolCallDeltas] using hok
    · simpa [processToolCallDeltas] using hfirst
  | cons g rest ih =>
    intro F s evs hinv hfirst hids hok
    obtain ⟨i, gid, gfn⟩ := g
    have hids2 : idsConsistentB cid (rest ++ F) = true := by
      have h2 := hids
      simp only [List.cons_append, idsConsistentB, List.all_cons,
        Bool.and_eq_true] at h2
      exact h2.2
    have hidg : gid = none ∨ gid = some (cid i) := by
      have h2 := hids
      simp only [List.cons_append, idsConsistentB, List.all_cons,
        Bool.and_eq_true, Bool.or_eq_true, beq_iff_eq] at h2
      rcases h2.1 with h | h
      · exact Or.inl h
      · exact Or.inr h
    rcases hlk : lookupTC s.tool_calls_state i with _ | st0
    · -- fresh index: the first fragment must be complete
      have hknot : i ∉ keysOf s := lookupTC_none_keys hlk
      have hfc : completeFragB cid ⟨i, gid, gfn⟩ = true := by
        have h2 := (hfirst i).resolve_left hknot
        rwa [show (⟨i, gid, gfn⟩ : ToolCallDelta) :: rest ++ F
            = (⟨i, gid, gfn⟩ : ToolCallDelta) :: (rest ++ F) from rfl,
          show i = (⟨i, gid, gfn⟩ : ToolCallDelta).index from rfl,
          firstFragCompleteB_cons_self] at h2
      obtain ⟨hgid, n, fargs, hgfn⟩ := completeFrag_spec hfc
      simp only at hgid hgfn
      subst hgid; subst hgfn
      obtain ⟨hrid, hrnm, hrst, hres⟩ := ptcd_fresh (cid i) n i fargs
      rw [ptcds_cons]
      simp only [hlk, Option.getD] at *
      have hesok : ∀ c, okFrom c (processToolCallDelta freshToolState ⟨i, some (cid i), some ⟨some n, fargs⟩⟩).2 = true := by
        intro c
        rcases hres with hsh | ⟨a, hsh⟩ <;> rw [hsh]
        · exact okFrom_start_only c (cid i) n
        · exact okFrom_start_delta c (cid i) n a
      have heshs : hasStart (cid i) (processToolCallDelta freshToolState ⟨i, some (cid i), some ⟨some n, fargs⟩⟩).2 = true := by
        rcases hres with hsh | ⟨a, hsh⟩ <;> rw [hsh] <;>
          simp [hasStart, isStartFor]
      have hinv2 : TSInv cid { s with tool_calls_state := setTC s.tool_calls_state i (processToolCallDelta freshToolState ⟨i, some (cid i), some ⟨some n, fargs⟩⟩).1 } (evs ++ (processToolCallDelta freshToolState ⟨i, some (cid i), some ⟨some n, fargs⟩⟩).2) := by
        intro p hp
        rcases mem_setTC hp with hp2 | ⟨hp1, hp2⟩
        · obtain ⟨ha, hb, hc, hd⟩ := hinv p hp2
          exact ⟨ha, hb, hc, hasStart_mono _ hd⟩
        · obtain ⟨j, st2⟩ := p
          simp only at hp1 hp2
          subst hp1; subst hp2
          exact ⟨hrid, hrnm, hrst, by rw [hasStart_append, heshs]; simp⟩
      have hok2 : OkAll (evs ++ (processToolCallDelta freshToolState ⟨i, some (cid i), some ⟨some n, fargs⟩⟩).2) :=
        okAll_append_of hok (fun c => Or.inr (hesok c))
      have hfirst2 : FirstsOK cid { s with tool_calls_state := setTC s.tool_calls_state i (processToolCallDelta freshToolState ⟨i, some (cid i), some ⟨some n, fargs⟩⟩).1 } (rest ++ F) := by
        intro j
        by_cases hj : j ∈ List.map Prod.fst (setTC s.tool_calls_state i (processToolCallDelta freshToolState ⟨i, some (cid i), some ⟨some n, fargs⟩⟩).1)
        · exact Or.inl hj
        · right
          have hji : j ≠ i := fun hji => hj (hji ▸ keys_setTC_self _ _ _)
          have hjs : j ∉ keysOf s := fun hjs => hj (keys_setTC_of_mem hjs)
          have h2 := (hfirst j).resolve_left hjs
          rwa [show (⟨i, some (cid i), some ⟨some n, fargs⟩⟩ : ToolCallDelta)
              :: rest ++ F = (⟨i, some (cid i), some ⟨some n, fargs⟩⟩
              : ToolCallDelta) :: (rest ++ F) from rfl,
            firstFragCompleteB_cons_ne (by simpa using hji.symm)] at h2
      obtain ⟨hc1, hc2, hc3⟩ := ih F { s with tool_calls_state := setTC s.tool_calls_state i (processToolCallDelta freshToolState ⟨i, some (cid i), some ⟨some n, fargs⟩⟩).1 } (evs ++ (processToolCallDelta freshToolState ⟨i, some (cid i), some ⟨some n, fargs⟩⟩).2) hinv2 hfirst2 hids2 hok2
      refine ⟨?_, ?_, hc3⟩
      · simpa [List.append_assoc] using hc1
      · simpa [List.append_assoc] using hc2
    · -- existing index
      have hmem := lookupTC_mem hlk
      obtain ⟨hid0, hnm0, hst0, hhs⟩ := hinv _ hmem
      obtain ⟨id0, nm0, ar0, sd0⟩ := st0
      simp only at hid0 hnm0 hst0 hhs
      obtain ⟨n0, hn0⟩ := Option.isSome_iff_exists.mp hnm0
      subst hid0; subst hn0; subst hst0
      obtain ⟨hrid, hrnm, hrst, hres⟩ :=
        ptcd_existing (cid i) n0 ar0 i gid gfn hidg
      rw [ptcds_cons]
      simp only [hlk, Option.getD] at *
      have hhsapp : ∀ c, hasStart c evs = true ∨ okFrom c (processToolCallDelta ⟨some (cid i), some n0, ar0, true⟩ ⟨i, gid, gfn⟩).2 = true := by
        intro c
        by_cases hc : c = cid i
        · subst hc; exact Or.inl hhs
        · right
          apply okFrom_of_no_tool
          intro e he
          obtain ⟨a, ha⟩ := hres e he
          subst ha
          simp only [isToolBodyFor, beq_iff_eq]
          exact decide_eq_false (fun h => absurd h.symm hc)
      have hinv2 : TSInv cid { s with tool_calls_state := setTC s.tool_calls_state i (processToolCallDelta ⟨some (cid i), some n0, ar0, true⟩ ⟨i, gid, gfn⟩).1 } (evs ++ (processToolCallDelta ⟨some (cid i), some n0, ar0, true⟩ ⟨i, gid, gfn⟩).2) := by
        intro p hp
        rcases mem_setTC hp with hp2 | ⟨hp1, hp2⟩
        · obtain ⟨ha, hb, hc, hd⟩ := hinv p hp2
          exact ⟨ha, hb, hc, hasStart_mono _ hd⟩
        · obtain ⟨j, st2⟩ := p
          simp only at hp1 hp2
          subst hp1; subst hp2
          exact ⟨hrid, hrnm, hrst, hasStart_mono _ hhs⟩
      have hok2 : OkAll (evs ++ (processToolCallDelta ⟨some (cid i), some n0, ar0, true⟩ ⟨i, gid, gfn⟩).2) := okAll_append_of hok hhsapp
      have hfirst2 : FirstsOK cid { s with tool_calls_state := setTC s.tool_calls_state i (processToolCallDelta ⟨some (cid i), some n0, ar0, true⟩ ⟨i, gid, gfn⟩).1 } (rest ++ F) := by
        intro j
        by_cases hj : j ∈ List.map Prod.fst (setTC s.tool_calls_state i (processToolCallDelta ⟨some (cid i), some n0, ar0, true⟩ ⟨i, gid, gfn⟩).1)
        · exact Or.inl hj
        · right
          have hji : j ≠ i := fun hji => hj (hji ▸ keys_setTC_self _ _ _)
          have hjs : j ∉ keysOf s := fun hjs => hj (keys_setTC_of_mem hjs)
          have h2 := (hfirst j).resolve_left hjs
          rwa [show (⟨i, gid, gfn⟩ : ToolCallDelta) :: rest ++ F
              = (⟨i, gid, gfn⟩ : ToolCallDelta) :: (rest ++ F) from rfl,
            firstFragCompleteB_cons_ne (by simpa using hji.symm)] at h2
      obtain ⟨hc1, hc2, hc3⟩ := ih F { s with tool_calls_state := setTC s.tool_calls_state i (processToolCallDelta ⟨some (cid i), some n0, ar0, true⟩ ⟨i, gid, gfn⟩).1 } (evs ++ (processToolCallDelta ⟨some (cid i), some n0, ar0, true⟩ ⟨i, gid, gfn⟩).2) hinv2 hfirst2 hids2 hok2
      refine ⟨?_, ?_, hc3⟩
      · simpa [List.append_assoc] using hc1
      · simpa [List.append_assoc] using hc2

theorem TSInv_congr {cid : Nat → String} {s1 s2 : GenState} {evs : List Event}
    (h : s1.tool_calls_state = s2.tool_calls_state) (hinv : TSInv cid s2 evs) :
    TSInv cid s1 evs := fun p hp => hinv p (h ▸ hp)

theorem FirstsOK_congr {cid : Nat → String} {s1 s2 : GenState}
    {frags : List ToolCallDelta} (h : s1.tool_calls_state = s2.tool_calls_state)
    (hf : FirstsOK cid s2 frags) : FirstsOK cid s1 frags := by
  intro i
  rcases hf i with hi | hi
  · exact Or.inl (by unfold keysOf at hi ⊢; rw [h]; exact hi)
  · exact Or.inr hi

theorem recordFinish_tcs (s : GenState) (ch : Choice) :
    (recordFinish s ch).tool_calls_state = s.tool_calls_state := by
  unfold recordFinish; split <;> rfl

theorem contentPhase_tcs (s : GenState) (d : Delta) :
    (contentPhase s d).1.tool_calls_state = s.tool_calls_state := by
  unfold contentPhase; split
  · split <;> rfl
  · rfl

theorem contentPhase_no_tool (s : GenState) (d : Delta) (c : String) :
    ∀ e ∈ (contentPhase s d).2, isToolBodyFor c e = false := by
  intro e he
  unfold contentPhase at he
  split at he
  · split at he
    · simp at he; subst he; rfl
    · simp at he; rcases he with rfl | rfl <;> rfl
  · simp at he

theorem choice_inv (cid : Nat → String) (ch : Choice)
    (F : List ToolCallDelta) (s : GenState) (evs : List Event)
    (hinv : TSInv cid s evs) (hfirst : FirstsOK cid s (choiceFrags ch ++ F))
    (hids : idsConsistentB cid (choiceFrags ch ++ F) = true) (hok : OkAll evs) :
    TSInv cid (processChoice s ch).1 (evs ++ (processChoice s ch).2) ∧
    OkAll (evs ++ (processChoice s ch).2) ∧
    FirstsOK cid (processChoice s ch).1 F := by
  unfold processChoice
  have hinv0 : TSInv cid (recordFinish s ch) evs :=
    TSInv_congr (recordFinish_tcs s ch) hinv
  have hfirst0 : FirstsOK cid (recordFinish s ch) (choiceFrags ch ++ F) :=
    FirstsOK_congr (recordFinish_tcs s ch) hfirst
  rcases hd : ch.delta with _ | delta
  · have hcf : choiceFrags ch = [] := by unfold choiceFrags; rw [hd]
    rw [hcf] at hfirst0
    refine ⟨by simpa using hinv0, by simpa using hok, by simpa using hfirst0⟩
  · have hcf : choiceFrags ch = delta.tool_calls := by unfold choiceFrags; rw [hd]
    rw [hcf] at hfirst0 hids
    have hinv1 : TSInv cid (contentPhase (recordFinish s ch) delta).1
        (evs ++ (contentPhase (recordFinish s ch) delta).2) := by
      refine TSInv_congr (contentPhase_tcs _ _) ?_
      intro p hp
      obtain ⟨ha, hb, hc2, hd2⟩ := hinv0 p hp
      exact ⟨ha, hb, hc2, hasStart_mono _ hd2⟩
    have hfirst1 : FirstsOK cid (contentPhase (recordFinish s ch) delta).1
        (delta.tool_calls ++ F) :=
      FirstsOK_congr (contentPhase_tcs _ _) hfirst0
    have hok1 : OkAll (evs ++ (contentPhase (recordFinish s ch) delta).2) :=
      okAll_append_of hok
        (fun c => Or.inr (okFrom_of_no_tool (contentPhase_no_tool _ _ c)))
    obtain ⟨hc1, hc2, hc3⟩ := ptcds_inv cid delta.tool_calls F
      (contentPhase (recordFinish s ch) delta).1
      (evs ++ (contentPhase (recordFinish s ch) delta).2) hinv1 hfirst1 hids hok1
    refine ⟨?_, ?_, hc3⟩
    · simpa [List.append_assoc] using hc1
    · simpa [List.append_assoc] using hc2

theorem choices_inv (cid : Nat → String) :
    ∀ (chs : List Choice) (F : List ToolCallDelta) (s : GenState)
      (evs : List Event),
      TSInv cid s evs →
      FirstsOK cid s ((chs.foldr (fun ch acc => choiceFrags ch ++ acc) []) ++ F) →
      idsConsistentB cid
        ((chs.foldr (fun ch acc => choiceFrags ch ++ acc) []) ++ F) = true →
      OkAll evs →
      TSInv cid (processChoices s chs).1 (evs ++ (processChoices s chs).2) ∧
      OkAll (evs ++ (processChoices s chs).2) ∧
      FirstsOK cid (processChoices s chs).1 F := by
  intro chs
  induction chs with
  | nil =>
    intro F s evs hinv hfirst hids hok
    refine ⟨by simpa [processChoices] using hinv,
      by simpa [processChoices] using hok,
      by simpa [processChoices] using hfirst⟩
  | cons ch rest ih =>
    intro F s evs hinv hfirst hids hok
    rw [processChoices_cons]
    simp only [List.foldr_cons, List.append_assoc] at hfirst hids
    obtain ⟨hc1, hc2, hc3⟩ := choice_inv cid ch
      (rest.foldr (fun ch acc => choiceFrags ch ++ acc) [] ++ F) s evs
      hinv hfirst hids hok
    obtain ⟨hd1, hd2, hd3⟩ := ih F (processChoice s ch).1
      (evs ++ (processChoice s ch).2) hc1 hc3 (by
        have h2 := hids
        simp only [idsConsistentB, List.all_append, Bool.and_eq_true] at h2 ⊢
        exact ⟨h2.2.1, h2.2.2⟩) hc2
    refine ⟨?_, ?_, hd3⟩
    · simpa [List.append_assoc] using hd1
    · simpa [List.append_assoc] using hd2

theorem chunk_inv (cid : Nat → String) (c : Chunk) (F : List ToolCallDelta)
    (s : GenState) (evs : List Event) (hinv : TSInv cid s evs)
    (hfirst : FirstsOK cid s (chunkFrags c ++ F))
    (hids : idsConsistentB cid (chunkFrags c ++ F) = true) (hok : OkAll evs) :
    TSInv cid (processChunk s c).1 (evs ++ (processChunk s c).2) ∧
    OkAll (evs ++ (processChunk s c).2) ∧
    FirstsOK cid (processChunk s c).1 F := by
  have hproj := processChunk_proj s c
  unfold chunkFrags at hfirst hids
  obtain ⟨hc1, hc2, hc3⟩ := choices_inv cid c.choices F s evs hinv hfirst hids hok
  refine ⟨?_, ?_, ?_⟩
  · rw [hproj.2.2.2.2]
    exact TSInv_congr hproj.2.2.2.1 hc1
  · rw [hproj.2.2.2.2]; exact hc2
  · exact FirstsOK_congr hproj.2.2.2.1 hc3

theorem runChunks_inv (cid : Nat → String) :
    ∀ (cs : List Chunk) (s : GenState) (evs : List Event),
      TSInv cid s evs → FirstsOK cid s (streamFrags cs) →
      idsConsistentB cid (streamFrags cs) = true → OkAll evs →
      TSInv cid (runChunks s cs).1 (evs ++ (runChunks s cs).2) ∧
      OkAll (evs ++ (runChunks s cs).2) := by
  intro cs
  induction cs with
  | nil =>
    intro s evs hinv hfirst hids hok
    exact ⟨by simpa [runChunks] using hinv, by simpa [runChunks] using hok⟩
  | cons c rest ih =>
    intro s evs hinv hfirst hids hok
    rw [runChunks_cons]
    have hfr : streamFrags (c :: rest) = chunkFrags c ++ streamFrags rest := rfl
    rw [hfr] at hfirst hids
    obtain ⟨hc1, hc2, hc3⟩ := chunk_inv cid c (streamFrags rest) s evs
      hinv hfirst hids hok
    obtain ⟨hd1, hd2⟩ := ih (processChunk s c).1 (evs ++ (processChunk s c).2)
      hc1 hc3 (by
        have h2 := hids
        simp only [idsConsistentB, List.all_append, Bool.and_eq_true] at h2
        exact (by simp only [idsConsistentB]; exact h2.2)) hc2
    refine ⟨?_, ?_⟩
    · simpa [List.append_assoc] using hd1
    · simpa [List.append_assoc] using hd2

theorem toolParse_no_start {env : StreamEnv} {st : ToolState} {c0 n : String}
    {c : String} : ∀ e ∈ toolParseEvents env st c0 n, isStartFor c e = false := by
  intro e he
  unfold toolParseEvents at he
  split at he
  · simp at he; subst he; rfl
  · unfold toolDispatchEvents at he
    split at he
    · simp at he; rcases he with rfl | rfl <;> rfl
    · split at he <;> simp at he <;> rcases he with rfl | rfl <;> rfl

theorem toolParse_body_id {env : StreamEnv} {st : ToolState} {c0 n c : String}
    (hc : c ≠ c0) : ∀ e ∈ toolParseEvents env st c0 n,
      isToolBodyFor c e = false := by
  intro e he
  have hne : (c0 == c) = false := by
    exact beq_eq_false_iff_ne.mpr (fun h => hc h.symm)
  unfold toolParseEvents at he
  split at he
  · simp at he; subst he; rfl
  · unfold toolDispatchEvents at he
    split at he
    · simp at he
      rcases he with rfl | rfl
      · simpa [isToolBodyFor] using hne
      · rfl
    · split at he <;> simp at he <;> rcases he with rfl | rfl
      · simpa [isToolBodyFor] using hne
      · rfl
      · simpa [isToolBodyFor] using hne
      · rfl

theorem pft_started (env : StreamEnv) (c0 n0 args0 : String) :
    processFinishedTool env ⟨some c0, some n0, args0, true⟩
      = toolParseEvents env ⟨some c0, some n0, args0, true⟩ c0 n0 := by
  simp [processFinishedTool]

theorem toolPhaseAux_ok (cid : Nat → String) (env : StreamEnv) (s : GenState) :
    ∀ (ks : List Nat) (evs : List Event), TSInv cid s evs → OkAll evs →
      OkAll (evs ++ ks.foldr (fun i acc =>
        (match lookupTC s.tool_calls_state i with
          | some st => processFinishedTool env st
          | none => []) ++ acc) []) := by
  intro ks
  induction ks with
  | nil => intro evs hinv hok; simpa using hok
  | cons i ks ih =>
    intro evs hinv hok
    simp only [List.foldr_cons]
    rcases hlk : lookupTC s.tool_calls_state i with _ | st0
    · simpa using ih evs hinv hok
    · have hmem := lookupTC_mem hlk
      obtain ⟨hid0, hnm0, hst0, hhs⟩ := hinv _ hmem
      obtain ⟨id0, nm0, ar0, sd0⟩ := st0
      simp only at hid0 hnm0 hst0 hhs
      obtain ⟨n0, hn0⟩ := Option.isSome_iff_exists.mp hnm0
      subst hid0; subst hn0; subst hst0
      rw [← List.append_assoc]
      have hok2 : OkAll (evs ++ processFinishedTool env
          ⟨some (cid i), some n0, ar0, true⟩) := by
        apply okAll_append_of hok
        intro c
        by_cases hc : c = cid i
        · subst hc; exact Or.inl hhs
        · right
          rw [pft_started]
          exact okFrom_of_no_tool (toolParse_body_id hc)
      have hinv2 : TSInv cid s (evs ++ processFinishedTool env
          ⟨some (cid i), some n0, ar0, true⟩) := by
        intro p hp
        obtain ⟨ha, hb, hc2, hd2⟩ := hinv p hp
        exact ⟨ha, hb, hc2, hasStart_mono _ hd2⟩
      exact ih _ hinv2 hok2

theorem toolPhase_ok (cid : Nat → String) (env : StreamEnv) (s : GenState)
    (evs : List Event) (hinv : TSInv cid s evs) (hok : OkAll evs) :
    OkAll (evs ++ toolPhase env s) := by
  unfold toolPhase
  exact toolPhaseAux_ok cid env s _ evs hinv hok

theorem okFrom_textEnds (c : String) (s : GenState) :
    okFrom c (stopCloseEvents s) = true ∧ okFrom c (finalCloseEvents s) = true := by
  constructor
  · unfold stopCloseEvents; split <;> simp [okFrom, isStartFor, isToolBodyFor]
  · unfold finalCloseEvents; split <;> simp [okFrom, isStartFor, isToolBodyFor]

theorem postPhase_ok (cid : Nat → String) (env : StreamEnv) (s : GenState)
    (evs : List Event) (hinv : TSInv cid s evs) (hok : OkAll evs) :
    OkAll (evs ++ postPhase env s) := by
  unfold postPhase
  rw [← List.append_assoc, ← List.append_assoc, ← List.append_assoc]
  have h1 : OkAll (evs ++ stopCloseEvents s) :=
    okAll_append_of hok (fun c => Or.inr (okFrom_textEnds c s).1)
  have hinv1 : TSInv cid s (evs ++ stopCloseEvents s) := by
    intro p hp
    obtain ⟨ha, hb, hc2, hd2⟩ := hinv p hp
    exact ⟨ha, hb, hc2, hasStart_mono _ hd2⟩
  have h2 : OkAll (evs ++ stopCloseEvents s ++ toolPhaseEvents env s) := by
    unfold toolPhaseEvents
    split
    · exact toolPhase_ok cid env s _ hinv1 h1
    · simpa using h1
  have h3 : OkAll (evs ++ stopCloseEvents s ++ toolPhaseEvents env s ++
      finalCloseEvents s) :=
    okAll_append_of h2 (fun c => Or.inr (okFrom_textEnds c s).2)
  apply okAll_append_of h3
  intro c
  right
  simp [okFrom, isStartFor, isToolBodyFor]

/-- C2 (amended): provided every tool-call index's first stream fragment
carries both the call id and the tool name, and no fragment re-assigns a
call id, every `tool-input-delta` and `tool-input-available` event for a
call id is preceded by that id's `tool-input-start` event — in every run,
normal or failing. -/
theorem tool_input_start_precedes (env : StreamEnv) (chunks : List Chunk)
    (exn : Option String) (cid : Nat → String)
    (hwf : wellFormedToolStream cid chunks = true) (c : String) :
    okFrom c (stream_text env chunks exn) = true := by
  have hwf2 := hwf
  simp only [wellFormedToolStream, Bool.and_eq_true] at hwf2
  have hids : idsConsistentB cid (streamFrags chunks) = true := hwf2.1
  have hall := hwf2.2
  have hfirst : FirstsOK cid initState (streamFrags chunks) := by
    intro i
    right
    rcases hf : (streamFrags chunks).find? (fun g => g.index == i) with _ | g
    · unfold firstFragCompleteB; rw [hf]
    · have hmem := List.mem_of_find?_eq_some hf
      have hp := List.find?_some hf
      simp only [beq_iff_eq] at hp
      have h2 := List.all_eq_true.mp hall g.index
        (List.mem_map.mpr ⟨g, hmem, rfl⟩)
      rwa [hp] at h2
  have hinv0 : TSInv cid initState [Event.start env.msgId] := by
    intro p hp; simp [initState] at hp
  have hok0 : OkAll [Event.start env.msgId] := by
    intro c2; simp [okFrom, isStartFor, isToolBodyFor]
  obtain ⟨hinv1, hok1⟩ := runChunks_inv cid chunks initState
    [Event.start env.msgId] hinv0 hfirst hids hok0
  unfold stream_text
  rcases exn with _ | e
  · have h2 := postPhase_ok cid env (runChunks initState chunks).1
      ([Event.start env.msgId] ++ (runChunks initState chunks).2) hinv1 hok1
    have h3 := h2 c
    simpa [List.append_assoc] using h3
  · have h2 : OkAll ([Event.start env.msgId] ++ (runChunks initState chunks).2
        ++ [Event.error e, Event.done]) := by
      apply okAll_append_of hok1
      intro c2
      right
      simp [okFrom, isStartFor, isToolBodyFor]
    have h3 := h2 c
    simpa [List.append_assoc] using h3

/-- C2 counterexample: on a run where the call id and argument text arrive
before the tool name, the code emits `tool-input-delta` for `call-1` before
any `tool-input-start` for it — the claimed ordering fails as stated. -/
theorem tool_input_start_precedes_counterexample :
    okFrom "call-1" (stream_text sampleEnv sampleBadToolChunks none) = false := by
  decide

theorem tool_input_start_precedes_witness :
    wellFormedToolStream (fun _ => "call-1") sampleToolChunks = true ∧
    okFrom "call-1" (stream_text sampleEnv sampleToolChunks none) = true :=
  ⟨by decide, tool_input_start_precedes sampleEnv sampleToolChunks none
    (fun _ => "call-1") (by decide) "call-1"⟩

theorem text_span_closed_before_finish_witness :
    Event.textStart textStreamId ∈ stream_text sampleEnv sampleTextChunks none ∧
    ∃ l₁ l₂ fm, stream_text sampleEnv sampleTextChunks none
      = l₁ ++ Event.textEnd textStreamId ::
          (l₂ ++ [Event.finish fm, Event.done]) :=
  ⟨by decide, text_span_closed_before_finish sampleEnv sampleTextChunks (by decide)⟩

end AI

namespace Scraper

/-- C5: at every step of the crawl loop (hence at return), the discovered
list never exceeds `max_urls`, and no URL is recorded at a queue depth
above `max_depth`. -/
theorem crawl_bounds (env : WebEnv) (cr : URLCrawler) :
    ∀ (visited : List String) (to_visit : List (String × Nat))
      (discovered : List (String × Nat)),
      discovered.length ≤ cr.max_urls →
      (∀ p ∈ discovered, p.2 ≤ cr.max_depth) →
      (crawlLoop env cr visited to_visit discovered).length ≤ cr.max_urls ∧
      ∀ p ∈ crawlLoop env cr visited to_visit discovered,
        p.2 ≤ cr.max_depth := by
  intro visited to_visit discovered
  induction visited, to_visit, discovered using crawlLoop.induct env cr with
  | case1 visited discovered =>
    intro h1 h2
    rw [crawlLoop]
    exact ⟨h1, h2⟩
  | case2 visited discovered url depth rest hlt hcond ih =>
    intro h1 h2
    rw [crawlLoop]
    simp only [hlt, ↓reduceDIte, hcond, if_pos]
    exact ih h1 h2
  | case3 visited discovered url depth rest hlt hcond v2 d2 e hfetch ih =>
    intro h1 h2
    rw [crawlLoop]
    simp only [hlt, ↓reduceDIte, hcond, Bool.false_eq_true, ↓reduceIte, hfetch]
    apply ih
    · show (discovered ++ [(url, depth)]).length ≤ cr.max_urls
      simp only [List.length_append, List.length_cons, List.length_nil]
      omega
    · intro p hp
      have hp2 : p ∈ discovered ++ [(url, depth)] := hp
      rcases List.mem_append.mp hp2 with hp | hp
      · exact h2 p hp
      · simp at hp
        subst hp
        simp only [Bool.or_eq_true, not_or, Bool.not_eq_true,
          decide_eq_true_eq] at hcond
        omega
  | case4 visited discovered url depth rest hlt hcond v2 d2 resp hfetch hstat ih =>
    intro h1 h2
    rw [crawlLoop]
    simp only [hlt, ↓reduceDIte, hcond, Bool.false_eq_true, ↓reduceIte,
      hfetch, hstat]
    apply ih
    · show (discovered ++ [(url, depth)]).length ≤ cr.max_urls
      simp only [List.length_append, List.length_cons, List.length_nil]
      omega
    · intro p hp
      have hp2 : p ∈ discovered ++ [(url, depth)] := hp
      rcases List.mem_append.mp hp2 with hp | hp
      · exact h2 p hp
      · simp at hp
        subst hp
        simp only [Bool.or_eq_true, not_or, Bool.not_eq_true,
          decide_eq_true_eq] at hcond
        omega
  | case5 visited discovered url depth rest hlt hcond v2 d2 resp hfetch hstat hhtml nl enq ih =>
    intro h1 h2
    rw [crawlLoop]
    simp only [hlt, ↓reduceDIte, hcond, Bool.false_eq_true, ↓reduceIte,
      hfetch, hstat, hhtml]
    apply ih
    · show (discovered ++ [(url, depth)]).length ≤ cr.max_urls
      simp only [List.length_append, List.length_cons, List.length_nil]
      omega
    · intro p hp
      have hp2 : p ∈ discovered ++ [(url, depth)] := hp
      rcases List.mem_append.mp hp2 with hp | hp
      · exact h2 p hp
      · simp at hp
        subst hp
        simp only [Bool.or_eq_true, not_or, Bool.not_eq_true,
          decide_eq_true_eq] at hcond
        omega
  | case6 visited discovered url depth rest hlt hcond v2 d2 resp hfetch hstat hhtml hpdf ih =>
    intro h1 h2
    rw [crawlLoop]
    simp only [hlt, ↓reduceDIte, hcond, Bool.false_eq_true, ↓reduceIte,
      hfetch, hstat, hhtml, hpdf]
    apply ih
    · show (discovered ++ [(url, depth)]).length ≤ cr.max_urls
      simp only [List.length_append, List.length_cons, List.length_nil]
      omega
    · intro p hp
      have hp2 : p ∈ discovered ++ [(url, depth)] := hp
      rcases List.mem_append.mp hp2 with hp | hp
      · exact h2 p hp
      · simp at hp
        subst hp
        simp only [Bool.or_eq_true, not_or, Bool.not_eq_true,
          decide_eq_true_eq] at hcond
        omega
  | case7 visited discovered url depth rest hlt hcond v2 d2 resp hfetch hstat hhtml hpdf ih =>
    intro h1 h2
    rw [crawlLoop]
    simp only [hlt, ↓reduceDIte, hcond, Bool.false_eq_true, ↓reduceIte,
      hfetch, hstat, hhtml, hpdf]
    apply ih
    · show (discovered ++ [(url, depth)]).length ≤ cr.max_urls
      simp only [List.length_append, List.length_cons, List.length_nil]
      omega
    · intro p hp
      have hp2 : p ∈ discovered ++ [(url, depth)] := hp
      rcases List.mem_append.mp hp2 with hp | hp
      · exact h2 p hp
      · simp at hp
        subst hp
        simp only [Bool.or_eq_true, not_or, Bool.not_eq_true,
          decide_eq_true_eq] at hcond
        omega
  | case8 visited discovered url depth rest hlt =>
    intro h1 h2
    rw [crawlLoop]
    simp only [hlt, ↓reduceDIte]
    exact ⟨h1, h2⟩

theorem crawl_bounds_witness :
    (([] : List (String × Nat)).length ≤ sampleCrawler.max_urls ∧
      ∀ p ∈ ([] : List (String × Nat)), p.2 ≤ sampleCrawler.max_depth) ∧
    ((crawlLoop sampleWebEnv sampleCrawler [] [("http://u", 0)] []).length
        ≤ sampleCrawler.max_urls ∧
      ∀ p ∈ crawlLoop sampleWebEnv sampleCrawler [] [("http://u", 0)] [],
        p.2 ≤ sampleCrawler.max_depth) :=
  ⟨⟨by simp, by simp⟩,
    crawl_bounds sampleWebEnv sampleCrawler [] [("http://u", 0)] []
      (by simp) (by simp)⟩

/-- C10: every non-exceptional completion of `URLCrawler.crawl` overwrites
`urls.txt` in the working directory with the newline-joined discovered
URLs, and touches no other file. -/
theorem crawl_writes_urls_txt (env : WebEnv) (cr : URLCrawler) (fs : FileSys) :
    (URLCrawler.crawl env cr fs).2 "urls.txt"
      = some (String.intercalate "\n" (URLCrawler.crawl env cr fs).1) ∧
    ∀ p, p ≠ "urls.txt" → (URLCrawler.crawl env cr fs).2 p = fs p := by
  constructor
  · simp [URLCrawler.crawl]
  · intro p hp
    simp [URLCrawler.crawl, hp]

theorem crawl_writes_urls_txt_witness :
    (URLCrawler.crawl sampleWebEnv sampleCrawler emptyFS).2 "urls.txt"
      = some (String.intercalate "\n"
          (URLCrawler.crawl sampleWebEnv sampleCrawler emptyFS).1) ∧
    (URLCrawler.crawl sampleWebEnv sampleCrawler emptyFS).2 "other"
      = emptyFS "other" :=
  ⟨(crawl_writes_urls_txt sampleWebEnv sampleCrawler emptyFS).1,
   (crawl_writes_urls_txt sampleWebEnv sampleCrawler emptyFS).2 "other"
     (by decide)⟩

theorem badStatus_crawl :
    crawlLoop badStatusEnv (URLCrawler.init badStatusEnv "http://u" 5 100 false [] [])
      [] [("http://u", 0)] [] = [("http://u", 0)] := by
  rw [crawlLoop]
  norm_num [badStatusEnv, URLCrawler.init]
  rw [crawlLoop]

/-- C3 counterexample: `scrape` returns a `ScrapeResult` for an HTML URL
whose response status is 404 — the HTML path never validates the status, so
a status ≥ 400 does not make the URL be skipped. -/
theorem scrape_status_counterexample :
    scrape badStatusEnv "http://u" emptyFS
      = [⟨"http://u", "body", none, 404⟩] := by
  simp only [scrape]
  rw [show (URLCrawler.crawl badStatusEnv
      (URLCrawler.init badStatusEnv "http://u" 5 100 false [] []) emptyFS).1
    = ([("http://u", 0)].map Prod.fst) from congrArg (List.map Prod.fst)
      badStatus_crawl]
  norm_num [normalizeScheme, processUrl, badStatusEnv, scrape_html]
  decide

/-- C3 (amended): on the PDF path a response with HTTP status ≥ 400 raises
`HTTPStatusError` inside `scrape_pdf`, which is caught, so the URL is
skipped and never yields a `ScrapeResult`.  (The HTML path never checks the
status, and no byte-size limit exists anywhere — see the counterexample.) -/
theorem pdf_status_skipped (env : WebEnv) (url : String) (resp : HttpResponse)
    (hfetch : env.fetch url = Except.ok resp)
    (hstat : 400 ≤ resp.status_code)
    (hpdf : subOccurs "application/pdf" resp.contentType = true) :
    processUrl env url = none := by
  unfold processUrl scrape_pdf
  rw [hfetch]
  simp [hpdf, hstat]

theorem pdf_status_skipped_witness :
    processUrl badPdfEnv "http://u" = none :=
  pdf_status_skipped badPdfEnv "http://u"
    ⟨"http://u", 404, "application/pdf", "body"⟩ rfl (by decide) (by decide)

end Scraper

theorem isWhitespace_false_of (c : Char) (h : 65 ≤ c.toNat) :
    c.isWhitespace = false := by
  have h1 : ¬ c = ' ' := fun he => absurd (he ▸ h) (by decide)
  have h2 : ¬ c = '\t' := fun he => absurd (he ▸ h) (by decide)
  have h3 : ¬ c = '\x0d' := fun he => absurd (he ▸ h) (by decide)
  have h4 : ¬ c = '\n' := fun he => absurd (he ▸ h) (by decide)
  simp [Char.isWhitespace, h1, h2, h3, h4]

theorem pyCharLower_ws (c : Char) :
    (pyCharLower c).isWhitespace = c.isWhitespace := by
  unfold pyCharLower
  split
  · next h =>
    have hval : (c.toNat + 32).isValidChar := Or.inl (by omega)
    have hv : (Char.ofNat (c.toNat + 32)).toNat = c.toNat + 32 := by
      simp only [Char.ofNat]
      rw [dif_pos hval]
      rfl
    rw [isWhitespace_false_of (Char.ofNat (c.toNat + 32)) (by rw [hv]; omega),
      isWhitespace_false_of c (by omega)]
  · rfl

theorem dropWhile_ws_map (l : List Char) :
    (l.map pyCharLower).dropWhile Char.isWhitespace
      = (l.dropWhile Char.isWhitespace).map pyCharLower := by
  rw [List.dropWhile_map,
    show (Char.isWhitespace ∘ pyCharLower) = Char.isWhitespace from
      funext fun c => by simp [Function.comp, pyCharLower_ws]]

theorem pyStrip_pyLower (q : String) :
    pyStrip (pyLower q) = pyLower (pyStrip q) := by
  unfold pyStrip pyLower
  simp only
  congr 1
  rw [dropWhile_ws_map, List.reverse_map, dropWhile_ws_map, List.reverse_map]

theorem pyLower_length (s : String) : (pyLower s).length = s.length := by
  unfold pyLower
  show (s.data.map pyCharLower).length = s.data.length
  exact List.length_map s.data pyCharLower

namespace Rewriter

theorem dedupKeyQ_ne_empty {q : String} (h : shortQuery q = false) :
    dedupKeyQ q ≠ "" := by
  unfold shortQuery at h
  simp only [Bool.or_eq_false_iff, beq_eq_false_iff_ne, ne_eq,
    decide_eq_false_iff_not, not_lt] at h
  unfold dedupKeyQ
  rw [pyStrip_pyLower]
  intro he
  have hl := congrArg String.length he
  rw [pyLower_length] at hl
  have h0 : String.length "" = 0 := rfl
  rw [h0] at hl
  omega

theorem dedupCI_spec : ∀ (l : List String) (seen : List String),
    (dedupCI seen l).Pairwise (fun a b => dedupKeyQ a ≠ dedupKeyQ b) ∧
    ∀ x ∈ dedupCI seen l, dedupKeyQ x ∉ seen := by
  intro l
  induction l with
  | nil => intro seen; exact ⟨List.Pairwise.nil, by simp [dedupCI]⟩
  | cons q rest ih =>
    intro seen
    unfold dedupCI
    split
    · next hcond =>
      simp only [Bool.and_eq_true, bne_iff_ne, ne_eq, Bool.not_eq_true] at hcond
      obtain ⟨hpw, hni⟩ := ih (dedupKeyQ q :: seen)
      constructor
      · refine List.Pairwise.cons ?_ hpw
        intro b hb he
        exact hni b hb (he ▸ List.mem_cons_self _ _)
      · intro x hx
        rcases List.mem_cons.mp hx with rfl | hx
        · intro hmem
          have : List.contains seen (dedupKeyQ x) = true := by
            exact List.elem_eq_true_of_mem hmem
          rw [this] at hcond
          exact absurd hcond.2 (by simp)
        · intro hmem
          exact hni x hx (List.mem_cons_of_mem _ hmem)
    · exact ih seen

theorem dedupCI_nil (seen : List String) : dedupCI seen [] = [] := rfl

theorem dedupCI_head {q : String} (rest : List String)
    (hk : dedupKeyQ q ≠ "") :
    dedupCI [] (q :: rest) = q :: dedupCI [dedupKeyQ q] rest := by
  have hcond : (dedupKeyQ q != "" && !(List.contains [] (dedupKeyQ q))) = true := by
    simp [hk]
  rw [dedupCI, if_pos hcond]

/-- C6: for every input query and strategy, `rewrite` returns at least one
query, whose first element is the input verbatim, with no two elements
equal after case-folding and trimming; and when every underlying generation
call fails, the result is exactly `[query]`. -/
theorem rewrite_spec (env : RewriteEnv) (query : String)
    (strategy : RewriteStrategy) :
    1 ≤ (rewrite env query strategy).length ∧
    (rewrite env query strategy).head? = some query ∧
    (rewrite env query strategy).Pairwise
      (fun a b => dedupKeyQ a ≠ dedupKeyQ b) ∧
    (env.expandContent = none → env.simplifyContent = none →
      env.reformContent = none → rewrite env query strategy = [query]) := by
  by_cases hshort : shortQuery query = true
  · refine ⟨by simp [rewrite, hshort], by simp [rewrite, hshort],
      by simp [rewrite, hshort], fun _ _ _ => by simp [rewrite, hshort]⟩
  · have hs : shortQuery query = false := by
      simpa using hshort
    have hk := dedupKeyQ_ne_empty hs
    have hq : ∃ tail, rewrite env query strategy = dedupCI [] (query :: tail) := by
      cases strategy <;> simp [rewrite, hs] <;> exact ⟨_, rfl⟩
    obtain ⟨tail, htail⟩ := hq
    refine ⟨?_, ?_, ?_, ?_⟩
    · rw [htail, dedupCI_head tail hk]; simp
    · rw [htail, dedupCI_head tail hk]; rfl
    · rw [htail, dedupCI_head tail hk]
      obtain ⟨hpw, hni⟩ := dedupCI_spec tail [dedupKeyQ query]
      refine List.Pairwise.cons ?_ hpw
      intro b hb he
      exact hni b hb (he ▸ List.mem_cons_self _ _)
    · intro h1 h2 h3
      have hfail : dedupCI [] [query, query] = [query] := by
        rw [show ([query, query] : List String) = query :: [query] from rfl,
          dedupCI_head [query] hk, dedupCI]
        simp [dedupCI_nil]
      cases strategy <;>
        simp [rewrite, hs, expand_query, simplify_query, reformulate_query,
          h1, h2, h3] <;>
        first
          | exact hfail
          | (rw [show ([query] : List String) = query :: [] from rfl,
              dedupCI_head [] hk, dedupCI_nil])

theorem rewrite_spec_witness :
    rewrite ⟨none, none, none⟩ "abc" RewriteStrategy.combined = ["abc"] :=
  (rewrite_spec ⟨none, none, none⟩ "abc" RewriteStrategy.combined).2.2.2
    rfl rfl rfl

end Rewriter

namespace Retrieval

theorem obsScores_append (ps qs : List (Doc × Int)) (k : String) :
    obsScores (ps ++ qs) k = obsScores ps k ++ obsScores qs k := by
  unfold obsScores
  exact List.filterMap_append ps qs _

theorem obsScores_single (p : Doc × Int) (k : String) :
    obsScores [p] k = if docKey p.1 == k then [p.2] else [] := by
  rcases p with ⟨d, s⟩
  by_cases h : docKey d = k
  · subst h; simp [obsScores]
  · simp [obsScores, h]

theorem pairwise_keys_unique : ∀ (acc : List (String × Doc × Int)),
    acc.Pairwise (fun a b => a.1 ≠ b.1) →
    ∀ a ∈ acc, ∀ b ∈ acc, a.1 = b.1 → a = b := by
  intro acc
  induction acc with
  | nil => intro _ a ha; exact absurd ha (List.not_mem_nil a)
  | cons x rest ih =>
    intro hpw a ha b hb heq
    have hx := List.pairwise_cons.mp hpw
    rcases List.mem_cons.mp ha with ha1 | ha1 <;>
      rcases List.mem_cons.mp hb with hb1 | hb1
    · rw [ha1, hb1]
    · subst ha1; exact absurd heq (hx.1 b hb1)
    · subst hb1; exact absurd heq.symm (hx.1 a ha1)
    · exact ih hx.2 a ha1 b hb1 heq

theorem mergeStep_inv {ps : List (Doc × Int)} {acc : List (String × Doc × Int)}
    (hinv : MInv ps acc) (p : Doc × Int) :
    MInv (ps ++ [p]) (mergeStep acc p) := by
  obtain ⟨hpw, hent, hcov⟩ := hinv
  have hobs1 : ∀ k, k ≠ docKey p.1 →
      obsScores (ps ++ [p]) k = obsScores ps k := by
    intro k hk
    rw [obsScores_append, obsScores_single,
      if_neg (fun hh => hk (beq_iff_eq.mp hh).symm), List.append_nil]
  have hobs2 : obsScores (ps ++ [p]) (docKey p.1)
      = obsScores ps (docKey p.1) ++ [p.2] := by
    rw [obsScores_append, obsScores_single, if_pos (beq_iff_eq.mpr rfl)]
  rcases hf : acc.find? (fun e => e.1 == docKey p.1) with _ | e0
  · -- fresh key: appended at the end
    have hno : ∀ e ∈ acc, e.1 ≠ docKey p.1 := by
      intro e he
      have h2 := List.find?_eq_none.mp hf e he
      simpa using h2
    have hobs : obsScores ps (docKey p.1) = [] := by
      by_contra hne
      obtain ⟨e, he, hek⟩ := hcov _ hne
      exact hno e he hek
    simp only [mergeStep, hf]
    refine ⟨?_, ?_, ?_⟩
    · rw [List.pairwise_append]
      refine ⟨hpw, List.pairwise_singleton _ _, ?_⟩
      intro a ha b hb
      have hb2 := List.mem_singleton.mp hb
      subst hb2
      exact hno a ha
    · intro e he
      rcases List.mem_append.mp he with he | he
      · obtain ⟨h1, h2, h3⟩ := hent e he
        rw [hobs1 e.1 (hno e he)]
        exact ⟨h1, h2, h3⟩
      · have he2 := List.mem_singleton.mp he
        subst he2
        refine ⟨rfl, ?_, ?_⟩
        · rw [hobs2, hobs]
          simp
        · intro s2 hs2
          rw [hobs2, hobs] at hs2
          simp at hs2
          show p.2 ≤ s2
          omega
    · intro k hk
      by_cases hkey : k = docKey p.1
      · subst hkey
        refine ⟨(docKey p.1, p.1, p.2), ?_, rfl⟩
        exact List.mem_append.mpr (Or.inr (List.mem_singleton.mpr rfl))
      · rw [hobs1 k hkey] at hk
        obtain ⟨e, he, hek⟩ := hcov k hk
        exact ⟨e, List.mem_append.mpr (Or.inl he), hek⟩
  · -- existing key
    have he0 : e0 ∈ acc := List.mem_of_find?_eq_some hf
    have he0k : e0.1 = docKey p.1 := by
      have h2 := List.find?_some hf
      simpa using h2
    obtain ⟨he01, he02, he03⟩ := hent e0 he0
    have hfkey : ∀ a : String × Doc × Int,
        (if a.1 == docKey p.1 then (docKey p.1, p.1, p.2) else a).1 = a.1 := by
      intro a
      by_cases h : (a.1 == docKey p.1) = true
      · rw [if_pos h]; exact (beq_iff_eq.mp h).symm
      · rw [if_neg h]
    simp only [mergeStep, hf]
    split
    · next hlt =>
      refine ⟨?_, ?_, ?_⟩
      · rw [List.pairwise_map]
        refine hpw.imp ?_
        intro a b h
        rw [hfkey a, hfkey b]
        exact h
      · intro e he
        obtain ⟨a, ha, hae⟩ := List.mem_map.mp he
        by_cases hak : (a.1 == docKey p.1) = true
        · rw [if_pos hak] at hae
          subst hae
          refine ⟨rfl, ?_, ?_⟩
          · rw [hobs2]
            simp
          · intro s2 hs2
            rw [hobs2] at hs2
            rcases List.mem_append.mp hs2 with hs2 | hs2
            · have hle := he03 s2 (by rw [he0k]; exact hs2)
              simp only
              omega
            · have hs3 := List.mem_singleton.mp hs2
              subst hs3
              simp only
              omega
        · rw [if_neg hak] at hae
          subst hae
          obtain ⟨h1, h2, h3⟩ := hent a ha
          have hkne : a.1 ≠ docKey p.1 := fun hh => hak (beq_iff_eq.mpr hh)
          rw [hobs1 a.1 hkne]
          exact ⟨h1, h2, h3⟩
      · intro k hk
        by_cases hkey : k = docKey p.1
        · subst hkey
          refine ⟨(docKey p.1, p.1, p.2), List.mem_map.mpr ⟨e0, he0, ?_⟩, rfl⟩
          rw [if_pos (beq_iff_eq.mpr he0k)]
        · rw [hobs1 k hkey] at hk
          obtain ⟨e, he, hek⟩ := hcov k hk
          have hekn : (e.1 == docKey p.1) = false := by
            refine beq_eq_false_iff_ne.mpr ?_
            rw [hek]
            exact hkey
          refine ⟨if e.1 == docKey p.1 then (docKey p.1, p.1, p.2) else e,
            List.mem_map.mpr ⟨e, he, rfl⟩, ?_⟩
          rw [hekn]
          simp only [Bool.false_eq_true, if_false]
          exact hek
    · next hge =>
      push_neg at hge
      refine ⟨hpw, ?_, ?_⟩
      · intro e he
        obtain ⟨h1, h2, h3⟩ := hent e he
        by_cases hek : e.1 = docKey p.1
        · have hunique : e = e0 := pairwise_keys_unique acc hpw e he e0 he0
            (by rw [hek, he0k])
          refine ⟨h1, ?_, ?_⟩
          · rw [hek, hobs2]
            rw [hek] at h2
            exact List.mem_append.mpr (Or.inl h2)
          · intro s2 hs2
            rw [hek, hobs2] at hs2
            rcases List.mem_append.mp hs2 with hs2 | hs2
            · exact h3 s2 (by rw [hek]; exact hs2)
            · have hs3 := List.mem_singleton.mp hs2
              subst hs3
              have heq : e.2.2 = e0.2.2 := by rw [hunique]
              omega
        · refine ⟨h1, ?_, ?_⟩
          · rw [hobs1 e.1 hek]
            exact h2
          · intro s2 hs2
            rw [hobs1 e.1 hek] at hs2
            exact h3 s2 hs2
      · intro k hk
        by_cases hkey : k = docKey p.1
        · subst hkey
          exact ⟨e0, he0, he0k⟩
        · rw [hobs1 k hkey] at hk
          exact hcov k hk

theorem mergeResults_inv :
    ∀ (rs : List (Doc × Int)) (ps : List (Doc × Int))
      (acc : List (String × Doc × Int)), MInv ps acc →
      MInv (ps ++ rs) (mergeResults acc rs) := by
  intro rs
  induction rs with
  | nil => intro ps acc h; simpa [mergeResults] using h
  | cons p rest ih =>
    intro ps acc h
    have h2 := ih (ps ++ [p]) (mergeStep acc p) (mergeStep_inv h p)
    rw [List.append_assoc] at h2
    simpa [mergeResults] using h2

theorem mergeQueries_inv (env : SearchEnv) :
    ∀ (queries : List String) (ps : List (Doc × Int))
      (acc : List (String × Doc × Int)), MInv ps acc →
      MInv (ps ++ allResults env queries) (mergeQueries env acc queries) := by
  intro queries
  induction queries with
  | nil => intro ps acc h; simpa [mergeQueries, allResults] using h
  | cons q rest ih =>
    intro ps acc h
    rw [show allResults env (q :: rest)
      = (match env.search q with
          | Except.error _ => []
          | Except.ok results => results) ++ allResults env rest from rfl]
    rcases hs : env.search q with e | rs
    · simp only [mergeQueries, hs]
      simpa using ih ps acc h
    · simp only [mergeQueries, hs]
      have h2 := ih (ps ++ rs) (mergeResults acc rs) (mergeResults_inv rs ps acc h)
      rw [List.append_assoc] at h2
      simpa using h2

theorem MInv_final (env : SearchEnv) (queries : List String) :
    MInv (allResults env queries) (mergeQueries env [] queries) := by
  have h := mergeQueries_inv env queries [] [] (by
    refine ⟨List.Pairwise.nil, ?_, ?_⟩
    · intro e he; exact absurd he (List.not_mem_nil e)
    · intro k hk; exact absurd rfl hk)
  simpa using h

theorem insertByScore_perm (p : Doc × Int) :
    ∀ l : List (Doc × Int), (insertByScore p l).Perm (p :: l) := by
  intro l
  induction l with
  | nil => exact List.Perm.refl _
  | cons q rest ih =>
    unfold insertByScore
    split
    · exact List.Perm.refl _
    · exact (List.Perm.cons q ih).trans (List.Perm.swap p q rest)

theorem sortByScore_perm :
    ∀ l : List (Doc × Int), (sortByScore l).Perm l := by
  intro l
  induction l with
  | nil => exact List.Perm.refl _
  | cons p rest ih =>
    unfold sortByScore
    exact (insertByScore_perm p (sortByScore rest)).trans (List.Perm.cons p ih)

theorem insertByScore_sorted (p : Doc × Int) :
    ∀ l : List (Doc × Int),
      l.Pairwise (fun a b => a.2 ≤ b.2) →
      (insertByScore p l).Pairwise (fun a b => a.2 ≤ b.2) := by
  intro l
  induction l with
  | nil => intro _; exact List.pairwise_singleton _ _
  | cons q rest ih =>
    intro h
    have hq := List.pairwise_cons.mp h
    unfold insertByScore
    split
    · next hlt =>
      refine List.pairwise_cons.mpr ⟨?_, h⟩
      intro b hb
      rcases List.mem_cons.mp hb with rfl | hb
      · omega
      · have := hq.1 b hb
        omega
    · next hge =>
      refine List.pairwise_cons.mpr ⟨?_, ih hq.2⟩
      intro b hb
      have hb2 := (insertByScore_perm p rest).mem_iff.mp hb
      rcases List.mem_cons.mp hb2 with rfl | hb2
      · omega
      · exact hq.1 b hb2

theorem sortByScore_sorted :
    ∀ l : List (Doc × Int),
      (sortByScore l).Pairwise (fun a b => a.2 ≤ b.2) := by
  intro l
  induction l with
  | nil => exact List.Pairwise.nil
  | cons p rest ih =>
    unfold sortByScore
    exact insertByScore_sorted p (sortByScore rest) ih

theorem mem_retrieve_docs {env : SearchEnv} {queries : List String} {k : Nat}
    {d : Doc} (h : d ∈ retrieve_docs env queries k) :
    ∃ s, (docKey d, d, s) ∈ mergeQueries env [] queries := by
  unfold retrieve_docs retrieve_docs_scored at h
  obtain ⟨p, hp, hfst⟩ := List.mem_map.mp h
  have hp2 : p ∈ sortByScore ((mergeQueries env [] queries).map
      (fun e => (e.2.1, e.2.2))) := List.mem_of_mem_take hp
  have hp3 := (sortByScore_perm _).mem_iff.mp hp2
  obtain ⟨e, he, heq⟩ := List.mem_map.mp hp3
  obtain ⟨hinv1, hinv2, hinv3⟩ := MInv_final env queries
  obtain ⟨hk1, _, _⟩ := hinv2 e he
  refine ⟨e.2.2, ?_⟩
  have hd : e.2.1 = d := by
    rw [show d = p.1 from hfst.symm, ← heq]
  have he2 : e = (docKey d, d, e.2.2) := by
    rcases e with ⟨k1, d1, s1⟩
    simp only at hk1 hd ⊢
    rw [hd] at hk1
    rw [hk1, hd]
  rw [← he2]
  exact he

/-- C4: `retrieve_docs` returns at most `k` documents, the scored list is
sorted by non-decreasing score, and for every dedup key observed in any
variant's results the retained entry's score is the minimum of all scores
observed for that key across all variants. -/
theorem retrieve_docs_spec (env : SearchEnv) (queries : List String) (k : Nat) :
    (retrieve_docs env queries k).length ≤ k ∧
    (retrieve_docs_scored env queries k).Pairwise (fun a b => a.2 ≤ b.2) ∧
    (∀ key, observedScores env queries key ≠ [] →
      ∃ e ∈ mergeQueries env [] queries, e.1 = key ∧
        e.2.2 ∈ observedScores env queries key ∧
        ∀ s2 ∈ observedScores env queries key, e.2.2 ≤ s2) := by
  obtain ⟨hinv1, hinv2, hinv3⟩ := MInv_final env queries
  refine ⟨?_, ?_, ?_⟩
  · unfold retrieve_docs retrieve_docs_scored
    rw [List.length_map]
    exact le_trans (List.length_take_le k _) (le_refl k)
  · unfold retrieve_docs_scored
    exact List.Pairwise.sublist (List.take_sublist k _) (sortByScore_sorted _)
  · intro key hk
    obtain ⟨e, he, hek⟩ := hinv3 key hk
    obtain ⟨h1, h2, h3⟩ := hinv2 e he
    subst hek
    exact ⟨e, he, rfl, h2, h3⟩

/-- C8: the dedup fingerprint is only the first 100 characters of the
chunk text, so two retrieved chunks agreeing on that fingerprint collapse
under one key and at most one of them is ever returned. -/
theorem dedup_fingerprint_collapses (env : SearchEnv) (queries : List String)
    (k : Nat) (d1 d2 : Doc)
    (h1 : d1 ∈ retrieve_docs env queries k)
    (h2 : d2 ∈ retrieve_docs env queries k)
    (hpre : d1.page_content.data.take 100 = d2.page_content.data.take 100) :
    d1 = d2 := by
  obtain ⟨s1, hm1⟩ := mem_retrieve_docs h1
  obtain ⟨s2, hm2⟩ := mem_retrieve_docs h2
  have hkey : docKey d1 = docKey d2 := by
    unfold docKey
    rw [hpre]
  obtain ⟨hinv1, hinv2, hinv3⟩ := MInv_final env queries
  have hu := pairwise_keys_unique _ hinv1 (docKey d1, d1, s1) hm1
    (docKey d2, d2, s2) hm2 (by simpa using hkey)
  have := congrArg (fun e => e.2.1) hu
  simpa using this

theorem retrieve_docs_spec_witness :
    ((retrieve_docs ⟨fun _ => Except.ok [(⟨"pd", []⟩, 3), (⟨"pd", []⟩, 1)]⟩
        ["q"] 5).length ≤ 5) ∧
    (∃ e ∈ mergeQueries ⟨fun _ => Except.ok [(⟨"pd", []⟩, 3), (⟨"pd", []⟩, 1)]⟩
        [] ["q"], e.1 = "pd" ∧
      e.2.2 ∈ observedScores
        ⟨fun _ => Except.ok [(⟨"pd", []⟩, 3), (⟨"pd", []⟩, 1)]⟩ ["q"] "pd" ∧
      ∀ s2 ∈ observedScores
        ⟨fun _ => Except.ok [(⟨"pd", []⟩, 3), (⟨"pd", []⟩, 1)]⟩ ["q"] "pd",
        e.2.2 ≤ s2) :=
  ⟨(retrieve_docs_spec ⟨fun _ => Except.ok [(⟨"pd", []⟩, 3), (⟨"pd", []⟩, 1)]⟩
      ["q"] 5).1,
   (retrieve_docs_spec ⟨fun _ => Except.ok [(⟨"pd", []⟩, 3), (⟨"pd", []⟩, 1)]⟩
      ["q"] 5).2.2 "pd" (by decide)⟩

theorem dedup_fingerprint_collapses_witness :
    retrieve_docs collideEnv ["q"] 5 = [collideDoc1] ∧
    collideDoc1 ∈ retrieve_docs collideEnv ["q"] 5 ∧
    collideDoc1 = collideDoc1 :=
  ⟨by decide, by decide,
   dedup_fingerprint_collapses collideEnv ["q"] 5 collideDoc1 collideDoc1
     (by decide) (by decide) rfl⟩

end Retrieval

end Backend
